import Mathlib

/-!
Verification of the batch installation orchestrator of the
Software_Install_Script repository (`sis/batch_installer.py` and
`sis/env_manager.py`), as a shallow embedding in Lean 4.

Modelling conventions:
* Python dicts are association lists that preserve insertion order;
  assignment replaces the value in place when the key exists and appends
  otherwise (`dictInsert`).
* Timestamps (`datetime.now().isoformat()`) and the md5-derived session id
  are external inputs; they are passed in as plain string parameters.
* External I/O (the `winget`/`brew` subprocess, environment mutation, the
  logger) is modelled by an `Ext` record of caller-supplied functions.  The
  package-manager adapter is abstracted to the four observable outcomes the
  code distinguishes: return code 0, non-zero return code whose combined
  output contains "already installed", any other non-zero return code, and a
  raised exception (caught inside `_install_with_winget`).
* Exceptions are modelled with `Except String`; a `try/except` in the source
  becomes a `match` on the `Except` value at exactly the same boundary.
  Functions that can let an exception escape while having already mutated
  shared state return the mutated state next to the `Except` value.
* Python floats only ever hold the literals 0 and 100 here (task progress),
  so progress is a `Nat`.
-/

/-! ## Data model (`batch_installer.py`, lines 39-91) -/

/-- Status enum `InstallStatus` (lines 39-46). -/
inductive InstallStatus where
  | pending
  | downloading
  | installing
  | success
  | failed
  | skipped
  | cancelled
deriving DecidableEq, Repr

/-- Priority enum `InstallPriority` (lines 49-53). -/
inductive InstallPriority where
  | critical
  | high
  | normal
  | low
deriving DecidableEq, Repr

/-- The `.value` of each `InstallPriority` member (CRITICAL = 0 … LOW = 3). -/
def InstallPriority.value : InstallPriority → Nat
  | .critical => 0
  | .high => 1
  | .normal => 2
  | .low => 3

/-- Python `InstallPriority(value)` (the enum constructor by ordinal);
raises `ValueError` for an ordinal outside 0..3, hence `Option`. -/
def InstallPriority.ofValue : Nat → Option InstallPriority
  | 0 => some .critical
  | 1 => some .high
  | 2 => some .normal
  | 3 => some .low
  | _ => none

/-- Dataclass `SoftwarePackage` (lines 56-67).  `env_vars` is a dict; it is
kept as an insertion-ordered list of pairs. -/
structure SoftwarePackage where
  id : String
  name : String
  version : Option String := none
  source : Option String := none
  category : String := "Other"
  priority : InstallPriority := .normal
  dependencies : List String := []
  post_install : List String := []
  env_vars : List (String × String) := []
  path_additions : List String := []
deriving DecidableEq, Repr

/-- Dataclass `InstallTask` (lines 70-79). -/
structure InstallTask where
  package : SoftwarePackage
  status : InstallStatus := .pending
  progress : Nat := 0
  start_time : Option String := none
  end_time : Option String := none
  error_message : Option String := none
  retry_count : Nat := 0
  output : List String := []
deriving DecidableEq, Repr

/-- Dataclass `InstallSession` (lines 82-90).  `tasks` is a dict keyed by
package id, modelled as an insertion-ordered association list. -/
structure InstallSession where
  session_id : String
  start_time : String
  total_packages : Nat
  completed : Nat := 0
  failed : Nat := 0
  skipped : Nat := 0
  tasks : List (String × InstallTask) := []
deriving DecidableEq, Repr

/-! ## Ordered-dict primitives -/

/-- Python dict assignment `d[k] = v`: replaces in place when the key is
present, appends otherwise. -/
def dictInsert (k : String) (v : InstallTask) :
    List (String × InstallTask) → List (String × InstallTask)
  | [] => [(k, v)]
  | (k', v') :: rest =>
      if k' = k then (k, v) :: rest else (k', v') :: dictInsert k v rest

/-- Python dict lookup `d.get(k)` / `d[k]` (first and only binding). -/
def dictLookup (k : String) : List (String × InstallTask) → Option InstallTask
  | [] => none
  | (k', v') :: rest => if k' = k then some v' else dictLookup k rest

/-- Replace the value bound to `k` when present; no-op otherwise.  This models
a mutation of the task object aliased by `session.tasks[k]` — such a mutation
can never add a key. -/
def dictSet (k : String) (v : InstallTask) :
    List (String × InstallTask) → List (String × InstallTask)
  | [] => []
  | (k', v') :: rest =>
      if k' = k then (k, v) :: rest else (k', v') :: dictSet k v rest

/-- The key list of a task dict. -/
def dictKeys (m : List (String × InstallTask)) : List String := m.map Prod.fst

@[simp] theorem dictKeys_nil : dictKeys [] = [] := rfl

@[simp] theorem dictKeys_cons (k' : String) (v' : InstallTask)
    (tl : List (String × InstallTask)) :
    dictKeys ((k', v') :: tl) = k' :: dictKeys tl := rfl

theorem dictLookup_insert_self (k : String) (v : InstallTask)
    (m : List (String × InstallTask)) : dictLookup k (dictInsert k v m) = some v := by
  induction m with
  | nil => simp [dictInsert, dictLookup]
  | cons hd tl ih =>
    obtain ⟨k', v'⟩ := hd
    by_cases h : k' = k
    · simp [dictInsert, dictLookup, h]
    · simp [dictInsert, dictLookup, h, ih]

theorem dictLookup_insert_other (k k₀ : String) (v : InstallTask)
    (m : List (String × InstallTask)) (h : k₀ ≠ k) :
    dictLookup k₀ (dictInsert k v m) = dictLookup k₀ m := by
  induction m with
  | nil => simp [dictInsert, dictLookup, Ne.symm h]
  | cons hd tl ih =>
    obtain ⟨k', v'⟩ := hd
    by_cases hk : k' = k
    · subst hk
      simp [dictInsert, dictLookup, h, Ne.symm h]
    · by_cases hk0 : k' = k₀ <;> simp [dictInsert, dictLookup, hk, hk0, h, ih]

theorem dictLookup_set_self (k : String) (v : InstallTask)
    (m : List (String × InstallTask)) (h : (dictLookup k m).isSome) :
    dictLookup k (dictSet k v m) = some v := by
  induction m with
  | nil => simp [dictLookup] at h
  | cons hd tl ih =>
    obtain ⟨k', v'⟩ := hd
    by_cases hk : k' = k
    · simp [dictSet, dictLookup, hk]
    · simp only [dictLookup, if_neg hk] at h
      simp [dictSet, dictLookup, hk, ih h]

theorem dictLookup_set_other (k k₀ : String) (v : InstallTask)
    (m : List (String × InstallTask)) (h : k₀ ≠ k) :
    dictLookup k₀ (dictSet k v m) = dictLookup k₀ m := by
  induction m with
  | nil => simp [dictSet]
  | cons hd tl ih =>
    obtain ⟨k', v'⟩ := hd
    by_cases hk : k' = k
    · subst hk
      simp [dictSet, dictLookup, Ne.symm h, h]
    · by_cases hk0 : k' = k₀ <;> simp [dictSet, dictLookup, hk, hk0, h, ih]

theorem dictKeys_set (k : String) (v : InstallTask)
    (m : List (String × InstallTask)) : dictKeys (dictSet k v m) = dictKeys m := by
  induction m with
  | nil => simp [dictSet]
  | cons hd tl ih =>
    obtain ⟨k', v'⟩ := hd
    by_cases hk : k' = k
    · simp [dictSet, hk]
    · simp [dictSet, hk, ih]

theorem dictLookup_isSome_of_mem_keys (k : String)
    (m : List (String × InstallTask)) (h : k ∈ dictKeys m) :
    (dictLookup k m).isSome := by
  induction m with
  | nil => simp at h
  | cons hd tl ih =>
    obtain ⟨k', v'⟩ := hd
    by_cases hk : k' = k
    · simp [dictLookup, hk]
    · rw [dictKeys_cons] at h
      rcases List.mem_cons.mp h with h1 | h2
      · exact absurd h1.symm hk
      · simp [dictLookup, hk, ih h2]

theorem dictKeys_insert (k : String) (v : InstallTask)
    (m : List (String × InstallTask)) :
    dictKeys (dictInsert k v m) =
      if k ∈ dictKeys m then dictKeys m else dictKeys m ++ [k] := by
  induction m with
  | nil => simp [dictInsert]
  | cons hd tl ih =>
    obtain ⟨k', v'⟩ := hd
    by_cases hk : k' = k
    · simp [dictInsert, hk, List.mem_cons]
    · by_cases hm : k ∈ dictKeys tl <;>
        simp [dictInsert, hk, Ne.symm hk, ih, hm, List.mem_cons]

/-! ## `create_session` (lines 111-127) -/

/-- A fresh `InstallTask` for one package (line 118). -/
def newTask (pkg : SoftwarePackage) : InstallTask := { package := pkg }

/-- `BatchInstaller.create_session` (lines 111-127).  The md5-derived session
id and the `datetime.now()` start time are external inputs `sid`/`now`. -/
def createSession (sid now : String) (packages : List SoftwarePackage) :
    InstallSession :=
  { session_id := sid
    start_time := now
    total_packages := packages.length
    tasks := packages.foldl (fun m pkg => dictInsert pkg.id (newTask pkg) m) [] }

/-! ## `_sort_by_priority` (lines 141-142)

Python's `sorted(packages, key=lambda p: p.priority.value)` is a stable sort
by the priority ordinal; it is modelled by a stable insertion sort (an
element is inserted before the first element of greater-or-equal ordinal is
wrong for stability — it is inserted after all strictly smaller ordinals and
before all greater-or-equal ones coming later, which keeps ties in input
order because insertion proceeds from the right). -/

/-- Insert one package into an already priority-sorted list, before the first
package whose ordinal is ≥ its own (ties keep the earlier-input element
first). -/
def insertByPriority (p : SoftwarePackage) :
    List SoftwarePackage → List SoftwarePackage
  | [] => [p]
  | q :: rest =>
      if p.priority.value ≤ q.priority.value then p :: q :: rest
      else q :: insertByPriority p rest

/-- `BatchInstaller._sort_by_priority` (lines 141-142): stable sort by
ascending `priority.value`. -/
def sortByPriority (packages : List SoftwarePackage) : List SoftwarePackage :=
  packages.foldr insertByPriority []

/-- Packages of one priority ordinal, in input order. -/
def filterByPriority (v : Nat) (packages : List SoftwarePackage) :
    List SoftwarePackage :=
  packages.filter (fun p => p.priority.value = v)

theorem priority_value_lt_four (p : InstallPriority) : p.value < 4 := by
  cases p <;> simp [InstallPriority.value]

theorem insertByPriority_append_of_lt (a : SoftwarePackage)
    (u w : List SoftwarePackage)
    (h : ∀ x ∈ u, x.priority.value < a.priority.value) :
    insertByPriority a (u ++ w) = u ++ insertByPriority a w := by
  induction u with
  | nil => simp
  | cons q u' ih =>
    have hq : q.priority.value < a.priority.value := h q (by simp)
    have : ¬ a.priority.value ≤ q.priority.value := by omega
    simp only [List.cons_append, insertByPriority, if_neg this, List.append_eq]
    rw [ih (fun x hx => h x (by simp [hx]))]

theorem insertByPriority_cons_of_le (a : SoftwarePackage)
    (w : List SoftwarePackage)
    (h : ∀ x ∈ w, a.priority.value ≤ x.priority.value) :
    insertByPriority a w = a :: w := by
  cases w with
  | nil => rfl
  | cons q w' =>
    have hq : a.priority.value ≤ q.priority.value := h q (by simp)
    simp [insertByPriority, hq]

theorem mem_filterByPriority {v : Nat} {x : SoftwarePackage}
    {l : List SoftwarePackage} (h : x ∈ filterByPriority v l) :
    x.priority.value = v := by
  have := List.of_mem_filter h
  simpa using this

theorem filterByPriority_cons (v : Nat) (a : SoftwarePackage)
    (l : List SoftwarePackage) :
    filterByPriority v (a :: l) =
      if a.priority.value = v then a :: filterByPriority v l
      else filterByPriority v l := by
  by_cases h : a.priority.value = v <;> simp [filterByPriority, List.filter_cons, h]

/-- The stable sort is exactly the concatenation of the four priority classes,
each kept in input order.  This pins down both the ordering and the
stability of `_sort_by_priority`. -/
theorem sortByPriority_eq_filter_blocks (l : List SoftwarePackage) :
    sortByPriority l =
      filterByPriority 0 l ++ filterByPriority 1 l ++
      filterByPriority 2 l ++ filterByPriority 3 l := by
  induction l with
  | nil => simp [sortByPriority, filterByPriority]
  | cons a l ih =>
    have step : sortByPriority (a :: l) = insertByPriority a (sortByPriority l) := rfl
    rw [step, ih]
    cases hp : a.priority with
    | critical =>
      have hv : a.priority.value = 0 := by rw [hp]; rfl
      rw [insertByPriority_cons_of_le a _ (fun x _ => by omega)]
      simp [filterByPriority_cons, hv]
    | high =>
      have hv : a.priority.value = 1 := by rw [hp]; rfl
      rw [show filterByPriority 0 l ++ filterByPriority 1 l ++
            filterByPriority 2 l ++ filterByPriority 3 l =
            filterByPriority 0 l ++ (filterByPriority 1 l ++
            filterByPriority 2 l ++ filterByPriority 3 l) by simp]
      rw [insertByPriority_append_of_lt a _ _
            (fun x hx => by have := mem_filterByPriority hx; omega)]
      rw [insertByPriority_cons_of_le a _ (fun x hx => by
            rcases List.mem_append.mp hx with hx' | hx'
            · rcases List.mem_append.mp hx' with hx'' | hx''
              · have := mem_filterByPriority hx''; omega
              · have := mem_filterByPriority hx''; omega
            · have := mem_filterByPriority hx'; omega)]
      simp [filterByPriority_cons, hv]
    | normal =>
      have hv : a.priority.value = 2 := by rw [hp]; rfl
      rw [show filterByPriority 0 l ++ filterByPriority 1 l ++
            filterByPriority 2 l ++ filterByPriority 3 l =
            (filterByPriority 0 l ++ filterByPriority 1 l) ++
            (filterByPriority 2 l ++ filterByPriority 3 l) by simp]
      rw [insertByPriority_append_of_lt a _ _ (fun x hx => by
            rcases List.mem_append.mp hx with hx' | hx' <;>
              · have := mem_filterByPriority hx'; omega)]
      rw [insertByPriority_cons_of_le a _ (fun x hx => by
            rcases List.mem_append.mp hx with hx' | hx' <;>
              · have := mem_filterByPriority hx'; omega)]
      simp [filterByPriority_cons, hv]
    | low =>
      have hv : a.priority.value = 3 := by rw [hp]; rfl
      rw [show filterByPriority 0 l ++ filterByPriority 1 l ++
            filterByPriority 2 l ++ filterByPriority 3 l =
            (filterByPriority 0 l ++ filterByPriority 1 l ++
             filterByPriority 2 l) ++ filterByPriority 3 l by simp]
      rw [insertByPriority_append_of_lt a _ _ (fun x hx => by
            rcases List.mem_append.mp hx with hx' | hx'
            · rcases List.mem_append.mp hx' with hx'' | hx'' <;>
                · have := mem_filterByPriority hx''; omega
            · have := mem_filterByPriority hx'; omega)]
      rw [insertByPriority_cons_of_le a _ (fun x hx => by
            have := mem_filterByPriority hx; omega)]
      simp [filterByPriority_cons, hv]

/-! ## Automation config export (`AutomationScript`, lines 676-725) -/

/-- One entry of the `packages` array written by `generate_config_file`
(lines 686-696).  Note that the descriptor's `source` field is *not* among
the serialized keys. -/
structure ConfigPackage where
  id : String
  name : String
  version : Option String
  category : String
  priority : Nat
  dependencies : List String
  post_install : List String
  env_vars : List (String × String)
  path_additions : List String
deriving DecidableEq, Repr

/-- The JSON document written by `generate_config_file` (lines 682-699). -/
structure ConfigFile where
  version : String
  generated : String
  packages : List ConfigPackage
deriving DecidableEq, Repr

/-- The per-package dict of `generate_config_file`: priority is serialized as
its ordinal `pkg.priority.value`. -/
def dumpPackage (pkg : SoftwarePackage) : ConfigPackage :=
  { id := pkg.id
    name := pkg.name
    version := pkg.version
    category := pkg.category
    priority := pkg.priority.value
    dependencies := pkg.dependencies
    post_install := pkg.post_install
    env_vars := pkg.env_vars
    path_additions := pkg.path_additions }

/-- `AutomationScript.generate_config_file` (lines 676-704); the
`datetime.now().isoformat()` timestamp is the parameter `generated`.
The file write is external I/O; the produced document is the result. -/
def generateConfigFile (generated : String) (packages : List SoftwarePackage) :
    ConfigFile :=
  { version := "1.0", generated := generated, packages := packages.map dumpPackage }

/-- The per-package reconstruction of `load_config_file` (lines 712-723):
`InstallPriority(pkg_data.get('priority', 2))` raises `ValueError` on an
ordinal outside 0..3; `source` is never passed, so it takes its `None`
default. -/
def loadPackage (c : ConfigPackage) : Except String SoftwarePackage :=
  match InstallPriority.ofValue c.priority with
  | none => .error "ValueError"
  | some pr =>
      .ok { id := c.id
            name := c.name
            version := c.version
            source := none
            category := c.category
            priority := pr
            dependencies := c.dependencies
            post_install := c.post_install
            env_vars := c.env_vars
            path_additions := c.path_additions }

/-- The `for pkg_data in config.get('packages', [])` loop of
`load_config_file`: packages are rebuilt in order and the first `ValueError`
aborts the whole call. -/
def loadPackages : List ConfigPackage → Except String (List SoftwarePackage)
  | [] => .ok []
  | c :: rest =>
      match loadPackage c with
      | .error e => .error e
      | .ok p =>
          match loadPackages rest with
          | .error e => .error e
          | .ok ps => .ok (p :: ps)

/-- `AutomationScript.load_config_file` (lines 706-725) applied to an
already-parsed config document. -/
def loadConfigFile (c : ConfigFile) : Except String (List SoftwarePackage) :=
  loadPackages c.packages

/-- Erase the one field that the config format does not carry. -/
def dropSource (pkg : SoftwarePackage) : SoftwarePackage := { pkg with source := none }

theorem ofValue_value (p : InstallPriority) : InstallPriority.ofValue p.value = some p := by
  cases p <;> rfl

theorem loadPackage_dumpPackage (pkg : SoftwarePackage) :
    loadPackage (dumpPackage pkg) = .ok (dropSource pkg) := by
  simp [loadPackage, dumpPackage, ofValue_value, dropSource]

theorem dumpPackage_dropSource (pkg : SoftwarePackage) :
    dumpPackage (dropSource pkg) = dumpPackage pkg := rfl

theorem loadConfigFile_generateConfigFile (ts : String)
    (pkgs : List SoftwarePackage) :
    loadConfigFile (generateConfigFile ts pkgs) = .ok (pkgs.map dropSource) := by
  induction pkgs with
  | nil => rfl
  | cons p rest ih =>
    simp only [generateConfigFile, loadConfigFile, List.map_cons, loadPackages,
      loadPackage_dumpPackage] at *
    simp [ih]

/-! ## `create_session` lemmas -/

theorem find?_append_singleton (pred : SoftwarePackage → Bool)
    (l : List SoftwarePackage) (p : SoftwarePackage) :
    List.find? pred (l ++ [p]) =
      match List.find? pred l with
      | some q => some q
      | none => if pred p then some p else none := by
  induction l with
  | nil => by_cases h : pred p <;> simp [List.find?, h]
  | cons a l ih =>
    by_cases h : pred a <;> simp [List.find?, h, ih]

theorem foldl_insert_lookup (i : String) (pkgs : List SoftwarePackage)
    (m : List (String × InstallTask)) :
    dictLookup i (pkgs.foldl (fun m pkg => dictInsert pkg.id (newTask pkg) m) m) =
      match List.find? (fun p => p.id = i) pkgs.reverse with
      | some q => some (newTask q)
      | none => dictLookup i m := by
  induction pkgs generalizing m with
  | nil => simp [List.find?]
  | cons p rest ih =>
    simp only [List.foldl_cons, List.reverse_cons]
    rw [ih, find?_append_singleton]
    cases hfind : List.find? (fun p => p.id = i) rest.reverse with
    | some q => simp
    | none =>
      by_cases hp : p.id = i
      · subst hp
        simp [dictLookup_insert_self]
      · simp [hp, dictLookup_insert_other _ _ _ _ (Ne.symm hp)]

theorem createSession_lookup (sid now i : String) (pkgs : List SoftwarePackage) :
    dictLookup i (createSession sid now pkgs).tasks =
      (List.find? (fun p => p.id = i) pkgs.reverse).map newTask := by
  rw [createSession, foldl_insert_lookup]
  cases List.find? (fun p => p.id = i) pkgs.reverse <;> simp [dictLookup]

theorem dictKeys_insert_nodup (k : String) (v : InstallTask)
    (m : List (String × InstallTask)) (h : (dictKeys m).Nodup) :
    (dictKeys (dictInsert k v m)).Nodup := by
  rw [dictKeys_insert]
  by_cases hm : k ∈ dictKeys m
  · simpa [hm] using h
  · simp only [hm, if_false]
    exact List.Nodup.append h (List.nodup_singleton k) (by simpa using hm)

theorem dictKeys_insert_toFinset (k : String) (v : InstallTask)
    (m : List (String × InstallTask)) :
    (dictKeys (dictInsert k v m)).toFinset = insert k (dictKeys m).toFinset := by
  rw [dictKeys_insert]
  by_cases hm : k ∈ dictKeys m
  · simp [hm, Finset.insert_eq_self.mpr (List.mem_toFinset.mpr hm)]
  · simp only [hm, if_false, List.toFinset_append]
    ext x
    simp [or_comm]

theorem foldl_insert_keys_toFinset (pkgs : List SoftwarePackage)
    (m : List (String × InstallTask)) :
    (dictKeys (pkgs.foldl (fun m pkg => dictInsert pkg.id (newTask pkg) m) m)).toFinset =
      (dictKeys m).toFinset ∪ (pkgs.map SoftwarePackage.id).toFinset := by
  induction pkgs generalizing m with
  | nil => simp
  | cons p rest ih =>
    simp only [List.foldl_cons, List.map_cons, List.toFinset_cons]
    rw [ih, dictKeys_insert_toFinset]
    ext x
    simp only [Finset.mem_union, Finset.mem_insert, List.mem_toFinset]
    tauto

theorem foldl_insert_keys_nodup (pkgs : List SoftwarePackage)
    (m : List (String × InstallTask)) (h : (dictKeys m).Nodup) :
    (dictKeys (pkgs.foldl (fun m pkg => dictInsert pkg.id (newTask pkg) m) m)).Nodup := by
  induction pkgs generalizing m with
  | nil => exact h
  | cons p rest ih =>
    exact ih _ (dictKeys_insert_nodup _ _ _ h)

theorem createSession_tasks_length (sid now : String) (pkgs : List SoftwarePackage) :
    (createSession sid now pkgs).tasks.length =
      (pkgs.map SoftwarePackage.id).toFinset.card := by
  have hkeys : (dictKeys (createSession sid now pkgs).tasks).toFinset =
      (pkgs.map SoftwarePackage.id).toFinset := by
    rw [createSession]
    simpa using foldl_insert_keys_toFinset pkgs []
  have hnodup : (dictKeys (createSession sid now pkgs).tasks).Nodup := by
    rw [createSession]
    exact foldl_insert_keys_nodup pkgs [] (by simp)
  have hlen : (createSession sid now pkgs).tasks.length =
      (dictKeys (createSession sid now pkgs).tasks).length := by
    simp [dictKeys]
  rw [hlen, ← List.toFinset_card_of_nodup hnodup, hkeys]

theorem toFinset_card_lt_of_not_nodup (l : List String) (h : ¬ l.Nodup) :
    l.toFinset.card < l.length := by
  rw [List.card_toFinset]
  rcases Nat.lt_or_ge l.dedup.length l.length with hlt | hge
  · exact hlt
  · exfalso
    have hsub : l.dedup.Sublist l := List.dedup_sublist l
    have hle : l.dedup.length ≤ l.length := hsub.length_le
    have heq : l.dedup.length = l.length := le_antisymm hle hge
    have : l.dedup = l := hsub.eq_of_length heq
    exact h (this ▸ List.nodup_dedup l)


/-! ## External collaborators and the package-manager adapter -/

/-- Observable outcome of one external package-manager invocation
(`_install_with_winget`, lines 194-251; `_install_with_brew`, lines 253-300,
is structurally identical).  `out` is the list of captured output lines.
* `success`: the process exits with return code 0 (line 237).
* `alreadyInstalled`: non-zero return code and the combined output contains
  "already installed" (line 242).
* `failure`: any other non-zero return code (line 246).
* `raises`: `Popen`/readline raised; the wrapper's own `try/except`
  catches it (lines 249-251). -/
inductive AdapterOutcome where
  | success (out : List String)
  | alreadyInstalled (out : List String)
  | failure (out : List String)
  | raises (msg : String)
deriving DecidableEq, Repr

/-- External collaborators: the adapter behaviour per package, the optional
progress callback (which may raise, hence `Except`), the environment-manager
results, the post-install shell commands, and the `datetime.now()` clock
(frozen to one string; timestamps play no role in the claims). -/
structure ExtEnv where
  adapter : SoftwarePackage → AdapterOutcome
  progressCallback : Option (String → InstallStatus → Nat → Except String Unit)
  appendPathOk : String → Bool
  setEnvOk : String → String → Bool
  postCmd : String → Except String Unit
  now : String

/-- The `if self._progress_callback: self._progress_callback(...)` call
(lines 138-139). -/
def cbRun (ext : ExtEnv) (pid : String) (st : InstallStatus) (pr : Nat) :
    Except String Unit :=
  match ext.progressCallback with
  | none => .ok ()
  | some f => f pid st pr

/-- The registered callback never raises. -/
def CbOk (ext : ExtEnv) : Prop := ∀ pid st pr, cbRun ext pid st pr = .ok ()

/-- `BatchInstaller._update_progress` (lines 132-139).  The task's status and
progress are set first; then the callback runs with **no** surrounding
`try/except`, so its exception leaves `_update_progress` with the mutation
already applied. -/
def updateProgress (ext : ExtEnv) (sess : InstallSession) (pid : String)
    (st : InstallStatus) (pr : Nat) : InstallSession × Except String Unit :=
  match dictLookup pid sess.tasks with
  | none => (sess, .ok ())
  | some t =>
      ({ sess with tasks := dictSet pid { t with status := st, progress := pr } sess.tasks },
        cbRun ext pid st pr)

/-- Python `'\n'.join(lines)[:500]` (lines 240, 246). -/
def truncateOutput (lines : List String) : String :=
  String.mk ((String.intercalate "\n" lines).toList.take 500)

/-- `BatchInstaller._install_with_winget` (lines 194-251) as a function of
the adapter outcome: returns the mutated task, the status values it wrote,
and the boolean result.  Total — its `try/except` catches the raised case. -/
def installWithWinget (ext : ExtEnv) (task : InstallTask) :
    InstallTask × List InstallStatus × Bool :=
  match ext.adapter task.package with
  | .success out => ({ task with output := task.output ++ out }, [], true)
  | .alreadyInstalled out =>
      ({ task with output := task.output ++ out, status := .skipped }, [.skipped], true)
  | .failure out =>
      ({ task with output := task.output ++ out, error_message := some (truncateOutput out) },
        [], false)
  | .raises e => ({ task with error_message := some e }, [], false)

/-- `BatchInstaller._post_install_actions` (lines 302-327): PATH appends and
env-var sets fold into a best-effort flag; each post-install command runs in
its own `try/except`, so command failures are invisible here.  The caller
discards the result (line 174). -/
def postInstallActions (ext : ExtEnv) (pkg : SoftwarePackage) : Bool :=
  let s1 := pkg.path_additions.foldl
    (fun acc p => if ext.appendPathOk p then acc else false) true
  pkg.env_vars.foldl (fun acc nv => if ext.setEnvOk nv.1 nv.2 then acc else false) s1

/-- The `except Exception as e` block of `_install_package` (lines 186-192):
record the message, mark FAILED, stamp end time, then `_update_progress`
(line 190) — whose own callback exception escapes the except block. -/
def handleExcept (ext : ExtEnv) (sess : InstallSession) (pid : String)
    (e : String) : InstallSession × Except String Bool :=
  match dictLookup pid sess.tasks with
  | none => (sess, .ok false)
  | some t =>
      let t' := { t with
                  error_message := some e
                  status := .failed
                  end_time := some ext.now }
      let sess1 := { sess with tasks := dictSet pid t' sess.tasks }
      let r := updateProgress ext sess1 pid .failed 0
      match r.2 with
      | .error e2 => (r.1, .error e2)
      | .ok _ => (r.1, .ok false)

/-- `BatchInstaller._install_package` (lines 155-192) on the win32 branch
(the darwin branch differs only in the adapter command).  The task is
`session.tasks[pid]` (shared by aliasing with the session dict, hence the
re-lookups).  Returns the mutated session, the ordered list of values
written to `task.status` during the call, and either the boolean result or
the exception that escaped (only a callback raise can escape, and only from
the pre-`try` update at line 160 or from inside the except block). -/
def installPackage (ext : ExtEnv) (sess : InstallSession) (pid : String) :
    InstallSession × List InstallStatus × Except String Bool :=
  match dictLookup pid sess.tasks with
  | none => (sess, [], .error "KeyError")
  | some t0 =>
      let t0' := { t0 with start_time := some ext.now, status := .installing }
      let sess1 := { sess with tasks := dictSet pid t0' sess.tasks }
      let u1 := updateProgress ext sess1 pid .installing 0
      match u1.2 with
      | .error e => (u1.1, [.installing, .installing], .error e)
      | .ok _ =>
          match dictLookup pid u1.1.tasks with
          | none => (u1.1, [.installing, .installing], .error "KeyError")
          | some t1 =>
              let w := installWithWinget ext t1
              let sess3 := { u1.1 with tasks := dictSet pid w.1 u1.1.tasks }
              let log0 := [InstallStatus.installing, InstallStatus.installing] ++ w.2.1
              if w.2.2 then
                let tS := { w.1 with
                            status := InstallStatus.success
                            end_time := some ext.now }
                let sess4 := { sess3 with tasks := dictSet pid tS sess3.tasks }
                let u2 := updateProgress ext sess4 pid .success 100
                match u2.2 with
                | .ok _ => (u2.1, log0 ++ [.success, .success], .ok true)
                | .error e =>
                    let h := handleExcept ext u2.1 pid e
                    (h.1, log0 ++ [.success, .success, .failed, .failed], h.2)
              else
                let tF := { w.1 with
                            status := InstallStatus.failed
                            end_time := some ext.now }
                let sess4 := { sess3 with tasks := dictSet pid tF sess3.tasks }
                let u2 := updateProgress ext sess4 pid .failed 0
                match u2.2 with
                | .ok _ => (u2.1, log0 ++ [.failed, .failed], .ok false)
                | .error e =>
                    let h := handleExcept ext u2.1 pid e
                    (h.1, log0 ++ [.failed, .failed, .failed, .failed], h.2)

/-! ## `_check_dependencies` (lines 144-153) -/

/-- Body of the `for dep_id in package.dependencies` loop (lines 147-151):
a dependency id joins `missing` only when it **has** a task in the session
and that task's status differs from SUCCESS; an id with no task is passed
over silently. -/
def depStep (sess : InstallSession) (acc : List String) (dep : String) :
    List String :=
  match dictLookup dep sess.tasks with
  | some t => if t.status ≠ .success then acc ++ [dep] else acc
  | none => acc

/-- `BatchInstaller._check_dependencies` (lines 144-153). -/
def checkDependencies (sess : InstallSession) (package : SoftwarePackage) :
    Bool × List String :=
  let missing := package.dependencies.foldl (depStep sess) []
  (missing.isEmpty, missing)

/-- The predicate a dependency id must satisfy to be reported missing. -/
def depUnmet (sess : InstallSession) (dep : String) : Bool :=
  match dictLookup dep sess.tasks with
  | some t => t.status ≠ .success
  | none => false

theorem depStep_eq (sess : InstallSession) (acc : List String) (dep : String) :
    depStep sess acc dep = if depUnmet sess dep then acc ++ [dep] else acc := by
  unfold depStep depUnmet
  cases dictLookup dep sess.tasks with
  | none => simp
  | some t => by_cases h : t.status = .success <;> simp [h]

theorem foldl_depStep_eq_filter (sess : InstallSession) (deps acc : List String) :
    deps.foldl (depStep sess) acc = acc ++ deps.filter (depUnmet sess) := by
  induction deps generalizing acc with
  | nil => simp
  | cons d rest ih =>
    rw [List.foldl_cons, depStep_eq, List.filter_cons]
    cases h : depUnmet sess d <;> simp [h, ih]

theorem checkDependencies_eq_filter (sess : InstallSession)
    (package : SoftwarePackage) :
    checkDependencies sess package =
      ((package.dependencies.filter (depUnmet sess)).isEmpty,
        package.dependencies.filter (depUnmet sess)) := by
  unfold checkDependencies
  rw [foldl_depStep_eq_filter]
  simp

/-! ## `_sequential_install` (lines 408-439) -/

/-- The body of the `for package in packages` loop of `_sequential_install`,
threading the three local counters.  `tasks[package.id]` (line 421) raises
`KeyError` when absent (never, for a session created from the same list);
an exception escaping `_install_package` propagates — there is no
`try/except` in this loop.  On a FAILED task with `stop_on_error` the loop
breaks immediately.  (`_stop_event` is set only by `cancel()`, which is
outside the model.) -/
def seqLoop (ext : ExtEnv) (stopOnError : Bool) :
    List SoftwarePackage → InstallSession → Nat → Nat → Nat →
    Except String (InstallSession × Nat × Nat × Nat)
  | [], sess, c, f, s => .ok (sess, c, f, s)
  | p :: rest, sess, c, f, s =>
      match dictLookup p.id sess.tasks with
      | none => .error "KeyError"
      | some _ =>
          let r := installPackage ext sess p.id
          match r.2.2 with
          | .error e => .error e
          | .ok _ =>
              match dictLookup p.id r.1.tasks with
              | none => .error "KeyError"
              | some t =>
                  if t.status = .success then
                    seqLoop ext stopOnError rest r.1 (c + 1) f s
                  else if t.status = .skipped then
                    seqLoop ext stopOnError rest r.1 c f (s + 1)
                  else if stopOnError then .ok (r.1, c, f + 1, s)
                  else seqLoop ext stopOnError rest r.1 c (f + 1) s

/-- `BatchInstaller._sequential_install` (lines 408-439): run the loop from
zeroed counters, then store the counters on the session.  (The final
environment hot-refresh is external I/O.)  Note: no dependency gate appears
anywhere on this path. -/
def sequentialInstall (ext : ExtEnv) (stopOnError : Bool) (sess : InstallSession)
    (packages : List SoftwarePackage) : Except String InstallSession :=
  match seqLoop ext stopOnError packages sess 0 0 0 with
  | .error e => .error e
  | .ok (sess', c, f, s) =>
      .ok { sess' with completed := c, failed := f, skipped := s }

/-! ## `_parallel_install` (lines 345-406)

The thread pool is modelled as a small-step machine.  Worker executions are
atomic steps: each worker mutates only its own task entry (distinct package
ids), so any fine-grained interleaving is equivalent to some serialization
of whole-task executions, and the serialization order is left arbitrary via
event lists.  Phase 1 is the submission `for` loop (lines 357-372): a
`dispatch` event performs one gate-check-and-submit iteration, and `exec`
events let already-submitted workers run in between.  Phase 2 is the
`as_completed` collection loop (lines 374-398): `exec` events run remaining
workers, `collect` events consume one completed future.  The loop structure
of the source forces all of phase 1 before any collection. -/

/-- State of the parallel run: the shared session, packages not yet reached
by the submission loop, submitted-but-not-executed worker entries (in
submission order), executed-but-uncollected futures with their results, the
three local counters of `_parallel_install`, and the `_stop_event` flag. -/
structure PPState where
  sess : InstallSession
  pending : List SoftwarePackage
  queue : List String
  done : List (String × Except String Bool)
  comp : Nat
  fail : Nat
  skip : Nat
  stop : Bool
deriving Repr

/-- One iteration of the submission loop (lines 357-372): check the stop
event (`break` empties the rest), evaluate the dependency gate, and either
mark the task SKIPPED with the joined missing-id message (consuming no
worker slot) or submit it to the pool. -/
def dispatchStep (st : PPState) : PPState :=
  match st.pending with
  | [] => st
  | p :: rest =>
      if st.stop then { st with pending := [] }
      else
        let md := checkDependencies st.sess p
        if md.1 then { st with pending := rest, queue := st.queue ++ [p.id] }
        else
          match dictLookup p.id st.sess.tasks with
          | none => { st with pending := rest }
          | some t =>
              let t' := { t with
                          status := InstallStatus.skipped
                          error_message := some ("Missing dependencies: " ++
                            String.intercalate ", " md.2) }
              { st with
                pending := rest
                sess := { st.sess with tasks := dictSet p.id t' st.sess.tasks }
                skip := st.skip + 1 }

/-- A submitted worker (position `k` of the queue) runs `_install_package`
to completion; its boolean result or escaped exception is stored on the
future. -/
def execStep (ext : ExtEnv) (k : Nat) (st : PPState) : PPState :=
  match st.queue.get? k with
  | none => st
  | some pid =>
      let r := installPackage ext st.sess pid
      { st with
        sess := r.1
        queue := st.queue.eraseIdx k
        done := st.done ++ [(pid, r.2.2)] }

/-- One iteration of the `as_completed` loop (lines 374-398) on the future
at position `k` of the completed set: a set stop event breaks out first;
`future.result()` re-raises a worker exception, which the `except` at line
396 converts to a failure count; otherwise the task's terminal status is
folded into the counters, and a FAILED task under `stop_on_error` sets the
stop event. -/
def collectStep (stopOnError : Bool) (k : Nat) (st : PPState) : PPState :=
  if st.stop then st
  else
    match st.done.get? k with
    | none => st
    | some (pid, r) =>
        let st1 := { st with done := st.done.eraseIdx k }
        match r with
        | .error _ => { st1 with fail := st1.fail + 1 }
        | .ok _ =>
            match dictLookup pid st1.sess.tasks with
            | none => { st1 with fail := st1.fail + 1 }
            | some t =>
                if t.status = .success then { st1 with comp := st1.comp + 1 }
                else if t.status = .skipped then { st1 with skip := st1.skip + 1 }
                else if stopOnError then
                  { st1 with fail := st1.fail + 1, stop := true }
                else { st1 with fail := st1.fail + 1 }

/-- Interleaving of phase 1: `none` = the next submission-loop iteration,
`some k` = the worker at queue position `k` finishes. -/
def runPhase1 (ext : ExtEnv) : List (Option Nat) → PPState → PPState
  | [], st => st
  | e :: evts, st =>
      match e with
      | none => runPhase1 ext evts (dispatchStep st)
      | some k => runPhase1 ext evts (execStep ext k st)

theorem dispatchStep_pending_length_lt (st : PPState) (h : st.pending ≠ []) :
    (dispatchStep st).pending.length < st.pending.length := by
  unfold dispatchStep
  cases hp : st.pending with
  | nil => exact absurd hp h
  | cons p rest =>
      by_cases hs : st.stop
      · simp [hs]
      · simp only [hs, if_false]
        by_cases hm : (checkDependencies st.sess p).1
        · simp [hm]
        · simp only [hm, if_false]
          cases dictLookup p.id st.sess.tasks <;> simp

/-- The source's submission loop always runs to the end of the package list
(collection starts only afterwards); this forces the remaining dispatch
iterations. -/
def dispatchAll (st : PPState) : PPState :=
  if h : st.pending = [] then st
  else dispatchAll (dispatchStep st)
termination_by st.pending.length
decreasing_by exact dispatchStep_pending_length_lt st h

/-- Interleaving of phase 2: `(true, k)` = the worker at queue position `k`
finishes; `(false, k)` = the collection loop consumes the completed future
at position `k`. -/
def runPhase2 (ext : ExtEnv) (stopOnError : Bool) :
    List (Bool × Nat) → PPState → PPState
  | [], st => st
  | (b, k) :: evts, st =>
      runPhase2 ext stopOnError evts
        (if b then execStep ext k st else collectStep stopOnError k st)

/-- After the chosen interleaving, the blocking `as_completed` loop and the
executor shutdown drain everything left — unless the stop event was set, in
which case collection stops (uncollected futures are cancelled or ignored). -/
theorem collectStep_measure (stopOnError : Bool) (st : PPState)
    (hs : st.stop = false) (hd : st.done ≠ []) :
    (collectStep stopOnError 0 st).queue.length = st.queue.length ∧
    (collectStep stopOnError 0 st).done.length + 1 = st.done.length := by
  unfold collectStep
  rw [hs]
  cases hr : st.done with
  | nil => exact absurd hr hd
  | cons d ds =>
      obtain ⟨pid, r⟩ := d
      cases r with
      | error e => simp [List.eraseIdx]
      | ok b =>
          cases hl : dictLookup pid st.sess.tasks with
          | none => simp [hl, List.eraseIdx]
          | some t =>
              by_cases h1 : t.status = .success
              · simp [hl, List.eraseIdx, h1]
              · by_cases h2 : t.status = .skipped
                · simp [hl, List.eraseIdx, h1, h2]
                · by_cases h3 : stopOnError <;> simp [hl, List.eraseIdx, h1, h2, h3]

theorem execStep_measure (ext : ExtEnv) (st : PPState) (hq : st.queue ≠ []) :
    (execStep ext 0 st).queue.length + 1 = st.queue.length ∧
    (execStep ext 0 st).done.length = st.done.length + 1 := by
  unfold execStep
  cases hr : st.queue with
  | nil => exact absurd hr hq
  | cons q qs => simp [List.eraseIdx]

deriving instance DecidableEq for Except

/-- After the chosen interleaving, the blocking `as_completed` loop and the
executor shutdown drain everything left — unless the stop event was set, in
which case collection stops (uncollected futures are cancelled or ignored). -/
def drain (ext : ExtEnv) (stopOnError : Bool) (st : PPState) : PPState :=
  if hs : st.stop then st
  else if hd : st.done = [] then
    if hq : st.queue = [] then st
    else drain ext stopOnError (execStep ext 0 st)
  else drain ext stopOnError (collectStep stopOnError 0 st)
termination_by 2 * st.queue.length + st.done.length
decreasing_by
  · have hm := execStep_measure ext st hq
    omega
  · have hm := collectStep_measure stopOnError st (by simpa using hs) hd
    omega

/-- `BatchInstaller._parallel_install` (lines 345-406): phase 1 dispatch
with interleaved worker completions, phase 2 collection, final drain, then
the counters are stored on the session (lines 400-402; the environment
hot-refresh is external I/O). -/
def parallelInstall (ext : ExtEnv) (stopOnError : Bool) (sess : InstallSession)
    (packages : List SoftwarePackage) (evts1 : List (Option Nat))
    (evts2 : List (Bool × Nat)) : InstallSession :=
  let st0 : PPState :=
    { sess := sess, pending := packages, queue := [], done := []
      comp := 0, fail := 0, skip := 0, stop := false }
  let st1 := dispatchAll (runPhase1 ext evts1 st0)
  let st2 := drain ext stopOnError (runPhase2 ext stopOnError evts2 st1)
  { st2.sess with completed := st2.comp, failed := st2.fail, skipped := st2.skip }

/-- `BatchInstaller.install_all` (lines 329-343) on a fresh installer
(`self._session is None`, so `create_session(packages)` runs): create the
session, stable-sort by priority, then dispatch in the chosen mode.  The
parallel path catches every worker exception, hence always `.ok`; the
sequential path can propagate a callback exception. -/
def installAll (ext : ExtEnv) (sid : String) (packages : List SoftwarePackage)
    (parallel stopOnError : Bool) (evts1 : List (Option Nat))
    (evts2 : List (Bool × Nat)) : Except String InstallSession :=
  let sess := createSession sid ext.now packages
  let sorted := sortByPriority packages
  if parallel then .ok (parallelInstall ext stopOnError sess sorted evts1 evts2)
  else sequentialInstall ext stopOnError sess sorted

/-! ## `EnvironmentManager.append_to_path` (`env_manager.py`, lines 207-227)

PATH values are strings manipulated with `split(';')`, `replace(";;", ";")`
and `strip(';')`; they are modelled as `List Char`.  `Path(...).resolve()`
is filesystem normalization (external); the model receives the already
resolved path.  The final `set_env` persists the computed value and returns
a bool; the claim concerns the computed PATH value, which the model
returns. -/

/-- Python `s.split(';')` (keeps empty components). -/
def splitSemi : List Char → List (List Char)
  | [] => [[]]
  | c :: rest =>
      if c = ';' then [] :: splitSemi rest
      else
        match splitSemi rest with
        | [] => [[c]]
        | h :: t => (c :: h) :: t

/-- Python `s.replace(";;", ";")`: scans left to right, non-overlapping —
after replacing one `";;"` the scan resumes after the written `";"`. -/
def collapseSemis : List Char → List Char
  | [] => []
  | [c] => [c]
  | c1 :: c2 :: rest =>
      if c1 = ';' ∧ c2 = ';' then ';' :: collapseSemis rest
      else c1 :: collapseSemis (c2 :: rest)

/-- Python `s.strip(';')`: remove leading then trailing `';'` characters. -/
def stripSemis (s : List Char) : List Char :=
  ((s.dropWhile (· = ';')).reverse.dropWhile (· = ';')).reverse

/-- `EnvironmentManager.append_to_path` (lines 207-227) as a function of the
current PATH value: return it unchanged when the resolved path is already a
component of `split(';')` (an **exact, case-sensitive** string comparison);
otherwise concatenate at the requested position, collapse `";;"` and strip
outer `';'`. -/
def appendToPath (currentPath pathToAdd : List Char) (position : String) :
    List Char :=
  if pathToAdd ∈ splitSemi currentPath then currentPath
  else
    let newPath :=
      if position = "start" then pathToAdd ++ [';'] ++ currentPath
      else currentPath ++ [';'] ++ pathToAdd
    stripSemis (collapseSemis newPath)

/-- The components of a PATH value that are nonempty strings (the empty
components are bookkeeping of consecutive separators). -/
def compsNE (s : List Char) : List (List Char) :=
  (splitSemi s).filter (fun c => !c.isEmpty)

theorem splitSemi_ne_nil (s : List Char) : splitSemi s ≠ [] := by
  cases s with
  | nil => simp [splitSemi]
  | cons c rest =>
      by_cases h : c = ';'
      · simp [splitSemi, h]
      · simp only [splitSemi, if_neg h]
        cases splitSemi rest <;> simp

theorem splitSemi_no_semi (p : List Char) (h : ';' ∉ p) : splitSemi p = [p] := by
  induction p with
  | nil => rfl
  | cons c rest ih =>
      have hc : c ≠ ';' := by
        intro hc; exact h (by simp [hc])
      have hrest : ';' ∉ rest := by
        intro hr; exact h (by simp [hr])
      simp only [splitSemi, if_neg hc, ih hrest]

theorem splitSemi_append_semi (a b : List Char) :
    splitSemi (a ++ ';' :: b) = splitSemi a ++ splitSemi b := by
  induction a with
  | nil => simp [splitSemi]
  | cons c a' ih =>
      by_cases hc : c = ';'
      · simp only [List.cons_append, splitSemi, if_pos hc, ih, List.append_eq]
      · simp only [List.cons_append, splitSemi, if_neg hc, ih, List.append_eq]
        cases hs : splitSemi a' with
        | nil => exact absurd hs (splitSemi_ne_nil a')
        | cons h t => simp

theorem splitSemi_head (s : List Char) :
    ∃ t, splitSemi s = (s.takeWhile (· ≠ ';')) :: t := by
  induction s with
  | nil => exact ⟨[], rfl⟩
  | cons c rest ih =>
      by_cases hc : c = ';'
      · refine ⟨splitSemi rest, ?_⟩
        simp [splitSemi, hc, List.takeWhile_cons]
      · obtain ⟨t, ht⟩ := ih
        refine ⟨t, ?_⟩
        simp [splitSemi, hc, ht, List.takeWhile_cons]

theorem compsNE_semi_cons (s : List Char) : compsNE (';' :: s) = compsNE s := by
  simp [compsNE, splitSemi]

theorem compsNE_cons_ne (c : Char) (s : List Char) (hc : c ≠ ';') :
    compsNE (c :: s) =
      (c :: s.takeWhile (· ≠ ';')) :: ((splitSemi s).tail.filter (fun x => !x.isEmpty)) := by
  obtain ⟨t, ht⟩ := splitSemi_head s
  simp only [compsNE, splitSemi, if_neg hc, ht]
  simp

theorem filter_tail_eq_of_filter_cons_eq {B : List Char}
    {t1 t2 : List (List Char)}
    (h : List.filter (fun x => !x.isEmpty) (B :: t1) =
      List.filter (fun x => !x.isEmpty) (B :: t2)) :
    List.filter (fun x => !x.isEmpty) t1 = List.filter (fun x => !x.isEmpty) t2 := by
  cases hB : B.isEmpty with
  | true => simpa [List.filter_cons, hB] using h
  | false =>
      simp only [List.filter_cons, hB, Bool.not_false, if_true] at h
      injection h with h1 h2

/-- `replace(";;", ";")` only merges consecutive separators: it preserves the
nonempty components and the leading component of a PATH string. -/
theorem collapseSemis_spec (s : List Char) :
    compsNE (collapseSemis s) = compsNE s ∧
    (collapseSemis s).takeWhile (· ≠ ';') = s.takeWhile (· ≠ ';') := by
  induction s using collapseSemis.induct with
  | case1 => simp [collapseSemis]
  | case2 c => simp [collapseSemis]
  | case3 c1 c2 rest h ih =>
      obtain ⟨h1, h2⟩ := h
      subst h1; subst h2
      have hstep : collapseSemis (';' :: ';' :: rest) = ';' :: collapseSemis rest := by
        simp [collapseSemis]
      constructor
      · rw [hstep]
        simp only [compsNE_semi_cons, ih.1]
      · rw [hstep]
        simp [List.takeWhile_cons]
  | case4 c1 c2 rest h ih =>
      have hstep : collapseSemis (c1 :: c2 :: rest) = c1 :: collapseSemis (c2 :: rest) := by
        simp only [collapseSemis, if_neg h]
      by_cases hc1 : c1 = ';'
      · subst hc1
        constructor
        · rw [hstep]
          simp only [compsNE_semi_cons, ih.1]
        · rw [hstep]
          simp [List.takeWhile_cons]
      · have hfiltereq : (splitSemi (collapseSemis (c2 :: rest))).tail.filter
            (fun x => !x.isEmpty) =
            (splitSemi (c2 :: rest)).tail.filter (fun x => !x.isEmpty) := by
          obtain ⟨t1, ht1⟩ := splitSemi_head (collapseSemis (c2 :: rest))
          obtain ⟨t2, ht2⟩ := splitSemi_head (c2 :: rest)
          have hcomps := ih.1
          rw [compsNE, compsNE, ht1, ht2, ih.2] at hcomps
          rw [ht1, ht2, List.tail_cons, List.tail_cons]
          exact filter_tail_eq_of_filter_cons_eq hcomps
        constructor
        · rw [hstep, compsNE_cons_ne c1 _ hc1, compsNE_cons_ne c1 _ hc1, ih.2, hfiltereq]
        · have h2 := ih.2
          simp only [decide_not] at h2
          rw [hstep]
          simp [List.takeWhile_cons, hc1, h2]

theorem compsNE_dropWhile_semi (s : List Char) :
    compsNE (s.dropWhile (· = ';')) = compsNE s := by
  induction s with
  | nil => rfl
  | cons c rest ih =>
      by_cases hc : c = ';'
      · subst hc
        rw [compsNE_semi_cons, ← ih]
        simp [List.dropWhile_cons]
      · simp [List.dropWhile_cons, hc]

theorem compsNE_append_semi_singleton (s : List Char) :
    compsNE (s ++ [';']) = compsNE s := by
  unfold compsNE
  rw [show s ++ [';'] = s ++ ';' :: [] from rfl, splitSemi_append_semi]
  simp [splitSemi]

theorem compsNE_append_replicate (s : List Char) (n : Nat) :
    compsNE (s ++ List.replicate n ';') = compsNE s := by
  induction n with
  | zero => simp
  | succ n ih =>
      rw [List.replicate_succ' n ';', ← List.append_assoc,
        compsNE_append_semi_singleton, ih]

theorem stripSemis_decomp (s : List Char) :
    ∃ n, stripSemis s ++ List.replicate n ';' = s.dropWhile (· = ';') := by
  refine ⟨((s.dropWhile (· = ';')).reverse.takeWhile (· = ';')).length, ?_⟩
  have hrepl : (s.dropWhile (· = ';')).reverse.takeWhile (· = ';') =
      List.replicate ((s.dropWhile (· = ';')).reverse.takeWhile (· = ';')).length ';' := by
    apply List.eq_replicate_of_mem
    intro b hb
    simpa using List.mem_takeWhile_imp hb
  have hsplit := List.takeWhile_append_dropWhile (fun x => decide (x = ';'))
      (s.dropWhile (· = ';')).reverse
  conv_rhs => rw [← List.reverse_reverse (s.dropWhile (· = ';')), ← hsplit]
  rw [List.reverse_append, stripSemis]
  congr 1
  rw [hrepl, List.reverse_replicate]
  simp

theorem compsNE_stripSemis (s : List Char) : compsNE (stripSemis s) = compsNE s := by
  obtain ⟨n, hn⟩ := stripSemis_decomp s
  calc compsNE (stripSemis s)
      = compsNE (stripSemis s ++ List.replicate n ';') :=
        (compsNE_append_replicate _ n).symm
    _ = compsNE (s.dropWhile (· = ';')) := by rw [hn]
    _ = compsNE s := compsNE_dropWhile_semi s

theorem count_compsNE (s : List Char) (p : List Char) (hne : p ≠ []) :
    (compsNE s).count p = (splitSemi s).count p :=
  List.count_filter (by simpa using hne)

/-- Core counting fact: when the (nonempty, separator-free) path is not yet
an exact component, the appended-and-cleaned PATH contains it exactly once
more than before. -/
theorem count_appendToPath_new (cur p : List Char) (pos : String)
    (hne : p ≠ []) (hsemi : ';' ∉ p) (hmem : p ∉ splitSemi cur) :
    (splitSemi (appendToPath cur p pos)).count p = 1 := by
  unfold appendToPath
  rw [if_neg hmem]
  have hsplitp : splitSemi p = [p] := splitSemi_no_semi p hsemi
  have hcount : ∀ newPath : List Char,
      splitSemi newPath = splitSemi cur ++ [p] ∨
      splitSemi newPath = [p] ++ splitSemi cur →
      (splitSemi (stripSemis (collapseSemis newPath))).count p = 1 := by
    intro newPath hshape
    have h1 : (splitSemi (stripSemis (collapseSemis newPath))).count p =
        (compsNE (stripSemis (collapseSemis newPath))).count p :=
      (count_compsNE _ p hne).symm
    rw [h1, compsNE_stripSemis, (collapseSemis_spec newPath).1]
    unfold compsNE
    rw [List.count_filter (by simpa using hne)]
    have hcur : (splitSemi cur).count p = 0 := by
      exact List.count_eq_zero.mpr hmem
    rcases hshape with hs | hs <;>
      simp [hs, List.count_append, hcur, List.count_cons]
  by_cases hpos : pos = "start"
  · rw [if_pos hpos]
    apply hcount
    right
    rw [List.append_assoc, List.singleton_append, splitSemi_append_semi, hsplitp]
  · rw [if_neg hpos]
    apply hcount
    left
    rw [List.append_assoc, List.singleton_append, splitSemi_append_semi, hsplitp]

theorem appendToPath_of_mem (cur p : List Char) (pos : String)
    (h : p ∈ splitSemi cur) : appendToPath cur p pos = cur := by
  unfold appendToPath
  rw [if_pos h]

/-- `append_to_path` is idempotent under **exact** (case-sensitive) equality
of the already-normalized path. -/
theorem appendToPath_idem (cur p : List Char) (pos : String)
    (hne : p ≠ []) (hsemi : ';' ∉ p) :
    appendToPath (appendToPath cur p pos) p pos = appendToPath cur p pos := by
  by_cases hmem : p ∈ splitSemi cur
  · rw [appendToPath_of_mem cur p pos hmem]
    exact appendToPath_of_mem cur p pos hmem
  · refine appendToPath_of_mem _ p pos (List.count_pos_iff.mp ?_)
    rw [count_appendToPath_new cur p pos hne hsemi hmem]
    exact Nat.one_pos

/-- The string each component is compared by under the claim's
case-insensitive reading (ASCII lowercase folding). -/
def lowerChars (s : List Char) : List Char := s.map Char.toLower

/-- Number of `split(';')` components of a PATH value equal to `p` up to
letter case. -/
def countCaseInsensitive (path p : List Char) : Nat :=
  ((splitSemi path).filter (fun c => lowerChars c == lowerChars p)).length

/-! ## Structural lemmas about `_install_package` -/

theorem dictSet_dictSet (k : String) (v1 v2 : InstallTask)
    (m : List (String × InstallTask)) :
    dictSet k v2 (dictSet k v1 m) = dictSet k v2 m := by
  induction m with
  | nil => rfl
  | cons hd tl ih =>
      obtain ⟨k', v'⟩ := hd
      by_cases hk : k' = k
      · simp [dictSet, hk]
      · simp [dictSet, hk, ih]

theorem updateProgress_other (ext : ExtEnv) (sess : InstallSession)
    (pid : String) (st : InstallStatus) (pr : Nat) (q : String) (hq : q ≠ pid) :
    dictLookup q (updateProgress ext sess pid st pr).1.tasks =
      dictLookup q sess.tasks := by
  unfold updateProgress
  cases hl : dictLookup pid sess.tasks with
  | none => rfl
  | some t => simp [dictLookup_set_other pid q _ _ hq]

theorem updateProgress_keys (ext : ExtEnv) (sess : InstallSession)
    (pid : String) (st : InstallStatus) (pr : Nat) :
    dictKeys (updateProgress ext sess pid st pr).1.tasks = dictKeys sess.tasks := by
  unfold updateProgress
  cases hl : dictLookup pid sess.tasks with
  | none => rfl
  | some t => simp [dictKeys_set]

theorem handleExcept_other (ext : ExtEnv) (sess : InstallSession)
    (pid e : String) (q : String) (hq : q ≠ pid) :
    dictLookup q (handleExcept ext sess pid e).1.tasks = dictLookup q sess.tasks := by
  unfold handleExcept
  cases hl : dictLookup pid sess.tasks with
  | none => rfl
  | some t =>
      simp only []
      split <;> simp [updateProgress_other, hq, dictLookup_set_other pid q _ _ hq]

theorem handleExcept_keys (ext : ExtEnv) (sess : InstallSession) (pid e : String) :
    dictKeys (handleExcept ext sess pid e).1.tasks = dictKeys sess.tasks := by
  unfold handleExcept
  cases hl : dictLookup pid sess.tasks with
  | none => rfl
  | some t =>
      simp only []
      split <;> simp [updateProgress_keys, dictKeys_set]

theorem installPackage_other (ext : ExtEnv) (sess : InstallSession)
    (pid q : String) (hq : q ≠ pid) :
    dictLookup q (installPackage ext sess pid).1.tasks = dictLookup q sess.tasks := by
  unfold installPackage
  cases h0 : dictLookup pid sess.tasks with
  | none => rfl
  | some t0 =>
      simp only []
      split
      · simp [updateProgress_other, hq, dictLookup_set_other pid q _ _ hq]
      · split
        · simp [updateProgress_other, hq, dictLookup_set_other pid q _ _ hq]
        · split
          · split
            · simp [updateProgress_other, hq, dictLookup_set_other pid q _ _ hq]
            · simp [handleExcept_other _ _ _ _ _ hq, updateProgress_other, hq,
                dictLookup_set_other pid q _ _ hq]
          · split
            · simp [updateProgress_other, hq, dictLookup_set_other pid q _ _ hq]
            · simp [handleExcept_other _ _ _ _ _ hq, updateProgress_other, hq,
                dictLookup_set_other pid q _ _ hq]

theorem installPackage_keys (ext : ExtEnv) (sess : InstallSession) (pid : String) :
    dictKeys (installPackage ext sess pid).1.tasks = dictKeys sess.tasks := by
  unfold installPackage
  cases h0 : dictLookup pid sess.tasks with
  | none => rfl
  | some t0 =>
      simp only []
      split
      · simp [updateProgress_keys, dictKeys_set]
      · split
        · simp [updateProgress_keys, dictKeys_set]
        · split
          · split
            · simp [updateProgress_keys, dictKeys_set]
            · simp [handleExcept_keys, updateProgress_keys, dictKeys_set]
          · split
            · simp [updateProgress_keys, dictKeys_set]
            · simp [handleExcept_keys, updateProgress_keys, dictKeys_set]

/-- The boolean `_install_package` returns for each adapter outcome. -/
def adapterReturnsOk : AdapterOutcome → Bool
  | .success _ => true
  | .alreadyInstalled _ => true
  | .failure _ => false
  | .raises _ => false

/-- The terminal status the task carries after `_install_package` for each
adapter outcome.  Note the already-installed case ends SUCCESS: the SKIPPED
set inside `_install_with_winget` is overwritten at line 175. -/
def adapterFinalStatus : AdapterOutcome → InstallStatus
  | .success _ => .success
  | .alreadyInstalled _ => .success
  | .failure _ => .failed
  | .raises _ => .failed

/-- The exact sequence of writes to `task.status` during `_install_package`
(direct assignments and `_update_progress` assignments), per adapter
outcome, when the callback does not raise. -/
def installLog : AdapterOutcome → List InstallStatus
  | .success _ => [.installing, .installing, .success, .success]
  | .alreadyInstalled _ => [.installing, .installing, .skipped, .success, .success]
  | .failure _ => [.installing, .installing, .failed, .failed]
  | .raises _ => [.installing, .installing, .failed, .failed]

theorem installPackage_run (ext : ExtEnv) (hcb : CbOk ext) (sess : InstallSession)
    (pid : String) (t0 : InstallTask) (h : dictLookup pid sess.tasks = some t0) :
    ∃ tfin : InstallTask,
      installPackage ext sess pid =
        ({ sess with tasks := dictSet pid tfin sess.tasks },
          installLog (ext.adapter t0.package),
          Except.ok (adapterReturnsOk (ext.adapter t0.package))) ∧
      tfin.status = adapterFinalStatus (ext.adapter t0.package) ∧
      tfin.package = t0.package := by
  have hcb' : ∀ pid st pr, cbRun ext pid st pr = .ok () := hcb
  have hsome : (dictLookup pid sess.tasks).isSome := by simp [h]
  have hset : ∀ v, dictLookup pid (dictSet pid v sess.tasks) = some v :=
    fun v => dictLookup_set_self pid v sess.tasks hsome
  cases hA : ext.adapter t0.package with
  | success out =>
      refine ⟨{ t0 with
                start_time := some ext.now
                end_time := some ext.now
                status := .success
                progress := 100
                output := t0.output ++ out }, ?_, rfl, rfl⟩
      simp [installPackage, h, updateProgress, hset, hcb', installWithWinget, hA,
        dictSet_dictSet, installLog, adapterReturnsOk]
  | alreadyInstalled out =>
      refine ⟨{ t0 with
                start_time := some ext.now
                end_time := some ext.now
                status := .success
                progress := 100
                output := t0.output ++ out }, ?_, rfl, rfl⟩
      simp [installPackage, h, updateProgress, hset, hcb', installWithWinget, hA,
        dictSet_dictSet, installLog, adapterReturnsOk]
  | failure out =>
      refine ⟨{ t0 with
                start_time := some ext.now
                end_time := some ext.now
                status := .failed
                progress := 0
                output := t0.output ++ out
                error_message := some (truncateOutput out) }, ?_, rfl, rfl⟩
      simp [installPackage, h, updateProgress, hset, hcb', installWithWinget, hA,
        dictSet_dictSet, installLog, adapterReturnsOk]
  | raises e =>
      refine ⟨{ t0 with
                start_time := some ext.now
                end_time := some ext.now
                status := .failed
                progress := 0
                error_message := some e }, ?_, rfl, rfl⟩
      simp [installPackage, h, updateProgress, hset, hcb', installWithWinget, hA,
        dictSet_dictSet, installLog, adapterReturnsOk]

/-! ## Behaviour under a raising progress callback -/

theorem updateProgress_snd (ext : ExtEnv) (sess : InstallSession)
    (pid : String) (st : InstallStatus) (pr : Nat)
    (h : (dictLookup pid sess.tasks).isSome) :
    (updateProgress ext sess pid st pr).2 = cbRun ext pid st pr := by
  unfold updateProgress
  cases hl : dictLookup pid sess.tasks with
  | none => rw [hl] at h; simp at h
  | some t => rfl

/-- With a callback that raises on the SUCCESS update (line 177) but not on
the INSTALLING or FAILED updates, a successful adapter outcome still ends
with the task FAILED: the exception is caught at line 186, which overwrites
the just-set SUCCESS and records the callback's message, and
`_install_package` returns `False`. -/
theorem installPackage_flip (ext : ExtEnv) (sess : InstallSession)
    (pid : String) (t0 : InstallTask) (out : List String) (e : String)
    (h : dictLookup pid sess.tasks = some t0)
    (hA : ext.adapter t0.package = .success out)
    (hcbI : ∀ pr, cbRun ext pid .installing pr = .ok ())
    (hcbS : ∀ pr, cbRun ext pid .success pr = .error e)
    (hcbF : ∀ pr, cbRun ext pid .failed pr = .ok ()) :
    ∃ tfin : InstallTask,
      installPackage ext sess pid =
        ({ sess with tasks := dictSet pid tfin sess.tasks },
          [.installing, .installing, .success, .success, .failed, .failed],
          Except.ok false) ∧
      tfin.status = .failed ∧ tfin.error_message = some e := by
  have hsome : (dictLookup pid sess.tasks).isSome := by simp [h]
  have hset : ∀ v, dictLookup pid (dictSet pid v sess.tasks) = some v :=
    fun v => dictLookup_set_self pid v sess.tasks hsome
  refine ⟨{ t0 with
            start_time := some ext.now
            end_time := some ext.now
            status := .failed
            progress := 0
            error_message := some e
            output := t0.output ++ out }, ?_, rfl, rfl⟩
  simp [installPackage, h, updateProgress, handleExcept, hset, hcbI, hcbS, hcbF,
    installWithWinget, hA, dictSet_dictSet]

/-- A callback raising on the very first (INSTALLING) update escapes
`_install_package` entirely: that call is outside the `try` block. -/
theorem installPackage_escape (ext : ExtEnv) (sess : InstallSession)
    (pid : String) (t0 : InstallTask) (e : String)
    (h : dictLookup pid sess.tasks = some t0)
    (hcbI : cbRun ext pid .installing 0 = .error e) :
    (installPackage ext sess pid).2.2 = .error e := by
  have hsome : (dictLookup pid sess.tasks).isSome := by simp [h]
  have hset : ∀ v, dictLookup pid (dictSet pid v sess.tasks) = some v :=
    fun v => dictLookup_set_self pid v sess.tasks hsome
  simp [installPackage, h, updateProgress, hset, hcbI]

/-- In sequential mode the escaped callback exception propagates out of
`install_all`: the sequential loop has no `try/except`. -/
theorem seqLoop_escape (ext : ExtEnv) (stopOnError : Bool)
    (p : SoftwarePackage) (rest : List SoftwarePackage)
    (sess : InstallSession) (c f s : Nat) (t0 : InstallTask) (e : String)
    (h : dictLookup p.id sess.tasks = some t0)
    (hcbI : cbRun ext p.id .installing 0 = .error e) :
    seqLoop ext stopOnError (p :: rest) sess c f s = .error e := by
  have hesc := installPackage_escape ext sess p.id t0 e h hcbI
  unfold seqLoop
  rw [h]
  simp only []
  rw [hesc]

/-! ## Permutation facts about the sort, and session well-formedness -/

theorem insertByPriority_perm (p : SoftwarePackage) (l : List SoftwarePackage) :
    List.Perm (insertByPriority p l) (p :: l) := by
  induction l with
  | nil => exact List.Perm.refl _
  | cons q rest ih =>
      unfold insertByPriority
      by_cases hle : p.priority.value ≤ q.priority.value
      · rw [if_pos hle]
      · rw [if_neg hle]
        exact (ih.cons q).trans (List.Perm.swap p q rest)

theorem sortByPriority_perm (l : List SoftwarePackage) :
    List.Perm (sortByPriority l) l := by
  induction l with
  | nil => exact List.Perm.refl _
  | cons a rest ih =>
      have : sortByPriority (a :: rest) = insertByPriority a (sortByPriority rest) := rfl
      rw [this]
      exact (insertByPriority_perm a (sortByPriority rest)).trans (ih.cons a)

theorem mem_sortByPriority {x : SoftwarePackage} {l : List SoftwarePackage} :
    x ∈ sortByPriority l ↔ x ∈ l :=
  (sortByPriority_perm l).mem_iff

theorem sortByPriority_ids_nodup {l : List SoftwarePackage}
    (h : (l.map SoftwarePackage.id).Nodup) :
    ((sortByPriority l).map SoftwarePackage.id).Nodup :=
  (((sortByPriority_perm l).map SoftwarePackage.id).nodup_iff).mpr h

theorem find?_reverse_self {pkgs : List SoftwarePackage} {p : SoftwarePackage}
    (hnodup : (pkgs.map SoftwarePackage.id).Nodup) (hmem : p ∈ pkgs) :
    List.find? (fun x => x.id = p.id) pkgs.reverse = some p := by
  induction pkgs with
  | nil => simp at hmem
  | cons q rest ih =>
      rw [List.map_cons, List.nodup_cons] at hnodup
      rw [List.reverse_cons, find?_append_singleton]
      rcases List.mem_cons.mp hmem with h1 | h2
      · subst h1
        cases hfind : List.find? (fun x => x.id = p.id) rest.reverse with
        | none => simp
        | some r =>
            exfalso
            have hrid : r.id = p.id := by simpa using List.find?_some hfind
            have hrmem : r ∈ rest := List.mem_reverse.mp (List.mem_of_find?_eq_some hfind)
            exact hnodup.1 (List.mem_map.mpr ⟨r, hrmem, hrid⟩)
      · rw [ih hnodup.2 h2]

/-- In a session created from a duplicate-free package list, each package's
id is bound to its own fresh task. -/
theorem createSession_lookup_self (sid now : String)
    (pkgs : List SoftwarePackage) (p : SoftwarePackage)
    (hnodup : (pkgs.map SoftwarePackage.id).Nodup) (hmem : p ∈ pkgs) :
    dictLookup p.id (createSession sid now pkgs).tasks = some (newTask p) := by
  rw [createSession_lookup, find?_reverse_self hnodup hmem]
  rfl

/-! ## Characterization of the sequential loop -/

theorem seqLoop_run_noStop (ext : ExtEnv) (hcb : CbOk ext) :
    ∀ (pkgs : List SoftwarePackage) (sess : InstallSession) (c f s : Nat),
    (pkgs.map SoftwarePackage.id).Nodup →
    (∀ p ∈ pkgs, ∃ tp, dictLookup p.id sess.tasks = some tp ∧ tp.package = p) →
    ∃ sess' c' f' s',
      seqLoop ext false pkgs sess c f s = .ok (sess', c', f', s') ∧
      c' + f' + s' = c + f + s + pkgs.length ∧
      (∀ q, (∀ p ∈ pkgs, q ≠ p.id) →
        dictLookup q sess'.tasks = dictLookup q sess.tasks) ∧
      (∀ p ∈ pkgs, ∃ t', dictLookup p.id sess'.tasks = some t' ∧
        t'.status = adapterFinalStatus (ext.adapter p) ∧ t'.package = p) := by
  intro pkgs
  induction pkgs with
  | nil =>
      intro sess c f s _ _
      exact ⟨sess, c, f, s, rfl, by simp, fun q _ => rfl, by simp⟩
  | cons p rest ih =>
      intro sess c f s hnodup hpres
      rw [List.map_cons, List.nodup_cons] at hnodup
      obtain ⟨tp, hl, hpkg⟩ := hpres p (by simp)
      obtain ⟨tfin, hrun, hstat, hpk⟩ := installPackage_run ext hcb sess p.id tp hl
      have hsetl : dictLookup p.id (dictSet p.id tfin sess.tasks) = some tfin :=
        dictLookup_set_self p.id tfin sess.tasks (by simp [hl])
      have hidrest : ∀ q ∈ rest, q.id ≠ p.id := by
        intro q hq heq
        exact hnodup.1 (List.mem_map.mpr ⟨q, hq, heq⟩)
      have hpres' : ∀ q ∈ rest, ∃ tq,
          dictLookup q.id ({ sess with
            tasks := dictSet p.id tfin sess.tasks } : InstallSession).tasks = some tq ∧
          tq.package = q := by
        intro q hq
        obtain ⟨tq, hlq, hpq⟩ := hpres q (by simp [hq])
        exact ⟨tq, by
          simpa [dictLookup_set_other p.id q.id tfin sess.tasks (hidrest q hq)]
            using hlq, hpq⟩
      obtain ⟨sess', c', f', s', hseq, hsum, hframe, hstatus⟩ :=
        ih { sess with tasks := dictSet p.id tfin sess.tasks }
          (c + (if adapterFinalStatus (ext.adapter p) = .success then 1 else 0))
          (f + (if adapterFinalStatus (ext.adapter p) = .success then 0 else 1)) s
          hnodup.2 hpres'
      have hfinst : tfin.status = adapterFinalStatus (ext.adapter p) := by
        rw [hstat, hpkg]
      have hstep : seqLoop ext false (p :: rest) sess c f s =
          seqLoop ext false rest { sess with tasks := dictSet p.id tfin sess.tasks }
            (c + (if adapterFinalStatus (ext.adapter p) = .success then 1 else 0))
            (f + (if adapterFinalStatus (ext.adapter p) = .success then 0 else 1)) s := by
        rw [seqLoop.eq_def]
        simp only [hl, hrun, hsetl, hfinst]
        cases hA : ext.adapter p with
        | success out => simp [adapterFinalStatus]
        | alreadyInstalled out => simp [adapterFinalStatus]
        | failure out => simp [adapterFinalStatus]
        | raises e => simp [adapterFinalStatus]
      refine ⟨sess', c', f', s', by rw [hstep]; exact hseq, ?_, ?_, ?_⟩
      · rcases hsplit : adapterFinalStatus (ext.adapter p) with _ | _ | _ | _ | _ | _ | _ <;>
          simp [hsplit, List.length_cons] at hsum ⊢ <;> omega
      · intro q hq
        rw [hframe q (fun p' hp' => hq p' (by simp [hp']))]
        exact dictLookup_set_other p.id q tfin sess.tasks (hq p (by simp))
      · intro p' hp'
        rcases List.mem_cons.mp hp' with h1 | h2
        · subst h1
          refine ⟨tfin, ?_, hfinst, by rw [hpk, hpkg]⟩
          rw [hframe p'.id (fun r hr => Ne.symm (hidrest r hr))]
          exact hsetl
        · exact hstatus p' h2

theorem seqLoop_run_stop (ext : ExtEnv) (hcb : CbOk ext) :
    ∀ (good : List SoftwarePackage) (b : SoftwarePackage)
      (rest2 : List SoftwarePackage) (sess : InstallSession) (c f s : Nat),
    ((good ++ b :: rest2).map SoftwarePackage.id).Nodup →
    (∀ p ∈ good ++ b :: rest2, ∃ tp,
      dictLookup p.id sess.tasks = some tp ∧ tp.package = p) →
    (∀ p ∈ good, adapterFinalStatus (ext.adapter p) = .success) →
    adapterFinalStatus (ext.adapter b) = .failed →
    ∃ sess',
      seqLoop ext true (good ++ b :: rest2) sess c f s =
        .ok (sess', c + good.length, f + 1, s) ∧
      (∀ q, (∀ p ∈ good, q ≠ p.id) → q ≠ b.id →
        dictLookup q sess'.tasks = dictLookup q sess.tasks) := by
  intro good
  induction good with
  | nil =>
      intro b rest2 sess c f s hnodup hpres hgood hbad
      obtain ⟨tb, hl, hpkg⟩ := hpres b (by simp)
      obtain ⟨tfin, hrun, hstat, hpk⟩ := installPackage_run ext hcb sess b.id tb hl
      have hsetl : dictLookup b.id (dictSet b.id tfin sess.tasks) = some tfin :=
        dictLookup_set_self b.id tfin sess.tasks (by simp [hl])
      have hfinst : tfin.status = .failed := by rw [hstat, hpkg, hbad]
      refine ⟨{ sess with tasks := dictSet b.id tfin sess.tasks }, ?_, ?_⟩
      · rw [List.nil_append, seqLoop.eq_def]
        simp [hl, hrun, hsetl, hfinst]
      · intro q _ hqb
        exact dictLookup_set_other b.id q tfin sess.tasks hqb
  | cons g good' ih =>
      intro b rest2 sess c f s hnodup hpres hgood hbad
      rw [List.cons_append, List.map_cons, List.nodup_cons] at hnodup
      obtain ⟨tg, hl, hpkg⟩ := hpres g (by simp)
      obtain ⟨tfin, hrun, hstat, hpk⟩ := installPackage_run ext hcb sess g.id tg hl
      have hsetl : dictLookup g.id (dictSet g.id tfin sess.tasks) = some tfin :=
        dictLookup_set_self g.id tfin sess.tasks (by simp [hl])
      have hfinst : tfin.status = .success := by
        rw [hstat, hpkg, hgood g (by simp)]
      have hidrest : ∀ q ∈ good' ++ b :: rest2, q.id ≠ g.id := by
        intro q hq heq
        exact hnodup.1 (List.mem_map.mpr ⟨q, hq, heq⟩)
      have hpres' : ∀ p ∈ good' ++ b :: rest2, ∃ tp,
          dictLookup p.id ({ sess with
            tasks := dictSet g.id tfin sess.tasks } : InstallSession).tasks = some tp ∧
          tp.package = p := by
        intro q hq
        obtain ⟨tq, hlq, hpq⟩ := hpres q (by simp [List.mem_append] at hq ⊢; tauto)
        exact ⟨tq, by
          simpa [dictLookup_set_other g.id q.id tfin sess.tasks (hidrest q hq)]
            using hlq, hpq⟩
      obtain ⟨sess', hseq, hframe⟩ :=
        ih b rest2 { sess with tasks := dictSet g.id tfin sess.tasks }
          (c + 1) f s hnodup.2 hpres' (fun p hp => hgood p (by simp [hp])) hbad
      refine ⟨sess', ?_, ?_⟩
      · rw [List.cons_append, seqLoop.eq_def]
        simp only [hl, hrun, hsetl, hfinst]
        simp only [List.length_cons]
        rw [show c + (good'.length + 1) = c + 1 + good'.length by omega, ← hseq]
        simp
      · intro q hq hqb
        rw [hframe q (fun p' hp' => hq p' (by simp [hp'])) hqb]
        exact dictLookup_set_other g.id q tfin sess.tasks (hq g (by simp))

/-! ## Invariants of the parallel machine -/

/-- Sum of the three local counters of `_parallel_install`. -/
def counterSum (st : PPState) : Nat := st.comp + st.fail + st.skip

/-- Work not yet folded into the counters. -/
def pendingLoad (st : PPState) : Nat :=
  st.pending.length + st.queue.length + st.done.length

/-- Every still-pending package id has a task entry (true for sessions built
by `create_session` from the same list). -/
def PKeys (st : PPState) : Prop :=
  ∀ p ∈ st.pending, p.id ∈ dictKeys st.sess.tasks

theorem dispatchStep_stop (st : PPState) : (dispatchStep st).stop = st.stop := by
  unfold dispatchStep
  cases hp : st.pending with
  | nil => rfl
  | cons p rest =>
      by_cases hs : st.stop
      · simp [hs]
      · simp only [hs, if_false]
        by_cases hm : (checkDependencies st.sess p).1
        · simp [hm]
        · simp only [hm, if_false]
          cases dictLookup p.id st.sess.tasks <;> simp

theorem execStep_stop (ext : ExtEnv) (k : Nat) (st : PPState) :
    (execStep ext k st).stop = st.stop := by
  unfold execStep
  cases st.queue.get? k <;> rfl

theorem collectStep_stop_false (k : Nat) (st : PPState) :
    (collectStep false k st).stop = st.stop := by
  unfold collectStep
  by_cases hs : st.stop
  · simp [hs]
  · simp only [hs, if_false]
    cases hd : st.done.get? k with
    | none => simp [hd, hs]
    | some d =>
        obtain ⟨pid, r⟩ := d
        cases r with
        | error e => simp [hd, hs]
        | ok b =>
            cases hl : dictLookup pid st.sess.tasks with
            | none => simp [hd, hl, hs]
            | some t =>
                by_cases h1 : t.status = .success
                · simp [hd, hl, h1, hs]
                · by_cases h2 : t.status = .skipped <;> simp [hd, hl, h1, h2, hs]

theorem dispatchStep_le (total : Nat) (st : PPState)
    (h : counterSum st + pendingLoad st ≤ total) :
    counterSum (dispatchStep st) + pendingLoad (dispatchStep st) ≤ total := by
  unfold counterSum pendingLoad at h ⊢
  unfold dispatchStep
  cases hp : st.pending with
  | nil => simpa using h
  | cons p rest =>
      rw [hp] at h
      simp only [List.length_cons] at h
      by_cases hs : st.stop
      · simp only [hs, if_true]
        simp
        omega
      · simp only [hs, if_false]
        by_cases hm : (checkDependencies st.sess p).1
        · simp only [hm, if_true]
          simp
          omega
        · simp only [hm, if_false]
          cases dictLookup p.id st.sess.tasks <;> · simp; omega

theorem execStep_load (ext : ExtEnv) (k : Nat) (st : PPState) :
    counterSum (execStep ext k st) = counterSum st ∧
    pendingLoad (execStep ext k st) = pendingLoad st := by
  unfold execStep counterSum pendingLoad
  cases hq : st.queue.get? k with
  | none => simp
  | some pid =>
      have hk : k < st.queue.length := by
        rcases List.get?_eq_some.mp hq with ⟨h, _⟩
        exact h
      have hlen : (st.queue.eraseIdx k).length = st.queue.length - 1 :=
        List.length_eraseIdx_of_lt hk
      simp [hlen]
      omega

theorem collectStep_sum (stopOnError : Bool) (k : Nat) (st : PPState) :
    counterSum (collectStep stopOnError k st) +
      pendingLoad (collectStep stopOnError k st) =
    counterSum st + pendingLoad st := by
  unfold counterSum pendingLoad
  unfold collectStep
  by_cases hs : st.stop
  · simp [hs]
  · simp only [hs, if_false]
    cases hd : st.done.get? k with
    | none => simp [hd]
    | some d =>
        obtain ⟨pid, r⟩ := d
        have hk : k < st.done.length := by
          rcases List.get?_eq_some.mp hd with ⟨h, _⟩
          exact h
        have hlen : (st.done.eraseIdx k).length = st.done.length - 1 :=
          List.length_eraseIdx_of_lt hk
        cases r with
        | error e => simp [hd, hlen]; omega
        | ok b =>
            cases hl : dictLookup pid st.sess.tasks with
            | none => simp [hd, hl, hlen]; omega
            | some t =>
                by_cases h1 : t.status = .success
                · simp [hd, hl, h1, hlen]; omega
                · by_cases h2 : t.status = .skipped
                  · simp [hd, hl, h1, h2, hlen]; omega
                  · by_cases h3 : stopOnError <;>
                      · simp [hd, hl, h1, h2, h3, hlen]
                        omega

theorem dispatchStep_eq (total : Nat) (st : PPState)
    (hs : st.stop = false) (hk : PKeys st)
    (h : counterSum st + pendingLoad st = total) :
    counterSum (dispatchStep st) + pendingLoad (dispatchStep st) = total := by
  unfold counterSum pendingLoad at h ⊢
  unfold dispatchStep
  cases hp : st.pending with
  | nil => simpa using h
  | cons p rest =>
      rw [hp] at h
      simp only [List.length_cons] at h
      simp only [hs, if_false]
      by_cases hm : (checkDependencies st.sess p).1
      · simp only [hm, if_true]
        simp
        omega
      · simp only [hm, if_false]
        have hid : p.id ∈ dictKeys st.sess.tasks := hk p (by simp [hp])
        have hlook := dictLookup_isSome_of_mem_keys p.id st.sess.tasks hid
        cases hl : dictLookup p.id st.sess.tasks with
        | none => rw [hl] at hlook; simp at hlook
        | some t => simp [hl]; omega

theorem dispatchStep_keys (st : PPState) :
    dictKeys (dispatchStep st).sess.tasks = dictKeys st.sess.tasks := by
  unfold dispatchStep
  cases hp : st.pending with
  | nil => rfl
  | cons p rest =>
      by_cases hs : st.stop
      · simp [hs]
      · simp only [hs, if_false]
        by_cases hm : (checkDependencies st.sess p).1
        · simp [hm]
        · simp only [hm, if_false]
          cases dictLookup p.id st.sess.tasks <;> simp [dictKeys_set]

theorem dispatchStep_pending_sub (st : PPState) :
    ∀ q ∈ (dispatchStep st).pending, q ∈ st.pending := by
  unfold dispatchStep
  cases hp : st.pending with
  | nil =>
      intro q hq
      rw [← hp]
      simpa using hq
  | cons p rest =>
      by_cases hs : st.stop
      · simp [hs]
      · simp only [hs, if_false]
        by_cases hm : (checkDependencies st.sess p).1
        · simp only [hm, if_true]
          intro q hq
          simp at hq
          simp [hq]
        · simp only [hm, if_false]
          cases dictLookup p.id st.sess.tasks <;>
            · intro q hq
              simp at hq
              simp [hq]

theorem dispatchStep_pkeys (st : PPState) (hk : PKeys st) : PKeys (dispatchStep st) := by
  intro q hq
  rw [dispatchStep_keys]
  exact hk q (dispatchStep_pending_sub st q hq)

theorem execStep_keys (ext : ExtEnv) (k : Nat) (st : PPState) :
    dictKeys (execStep ext k st).sess.tasks = dictKeys st.sess.tasks := by
  unfold execStep
  cases hq : st.queue.get? k with
  | none => rfl
  | some pid => simp [installPackage_keys]

theorem execStep_pending (ext : ExtEnv) (k : Nat) (st : PPState) :
    (execStep ext k st).pending = st.pending := by
  unfold execStep
  cases hq : st.queue.get? k <;> rfl

theorem execStep_pkeys (ext : ExtEnv) (k : Nat) (st : PPState) (hk : PKeys st) :
    PKeys (execStep ext k st) := by
  intro q hq
  rw [execStep_keys]
  rw [execStep_pending] at hq
  exact hk q hq

theorem collectStep_sess (stopOnError : Bool) (k : Nat) (st : PPState) :
    (collectStep stopOnError k st).sess = st.sess ∧
    (collectStep stopOnError k st).pending = st.pending := by
  unfold collectStep
  by_cases hs : st.stop
  · simp [hs]
  · simp only [hs, if_false]
    cases hd : st.done.get? k with
    | none => simp
    | some d =>
        obtain ⟨pid, r⟩ := d
        cases r with
        | error e => simp
        | ok b =>
            cases hl : dictLookup pid st.sess.tasks with
            | none => simp [hl]
            | some t =>
                by_cases h1 : t.status = .success
                · simp [hl, h1]
                · by_cases h2 : t.status = .skipped
                  · simp [hl, h1, h2]
                  · by_cases h3 : stopOnError <;> simp [hl, h1, h2, h3]

theorem collectStep_pkeys (stopOnError : Bool) (k : Nat) (st : PPState)
    (hk : PKeys st) : PKeys (collectStep stopOnError k st) := by
  intro q hq
  rw [(collectStep_sess stopOnError k st).1]
  rw [(collectStep_sess stopOnError k st).2] at hq
  exact hk q hq

/-! ## Closure of invariants over whole runs -/

theorem runPhase1_closure (ext : ExtEnv) {P : PPState → Prop}
    (hd : ∀ st, P st → P (dispatchStep st))
    (he : ∀ k st, P st → P (execStep ext k st)) :
    ∀ (evts : List (Option Nat)) (st : PPState), P st → P (runPhase1 ext evts st) := by
  intro evts
  induction evts with
  | nil => intro st hp; exact hp
  | cons e rest ih =>
      intro st hp
      cases e with
      | none => exact ih _ (hd st hp)
      | some k => exact ih _ (he k st hp)

theorem runPhase2_closure (ext : ExtEnv) (stopOnError : Bool) {P : PPState → Prop}
    (he : ∀ k st, P st → P (execStep ext k st))
    (hc : ∀ k st, P st → P (collectStep stopOnError k st)) :
    ∀ (evts : List (Bool × Nat)) (st : PPState), P st → P (runPhase2 ext stopOnError evts st) := by
  intro evts
  induction evts with
  | nil => intro st hp; exact hp
  | cons e rest ih =>
      intro st hp
      obtain ⟨b, k⟩ := e
      cases b with
      | true => exact ih _ (he k st hp)
      | false => exact ih _ (hc k st hp)

theorem dispatchAll_closure {P : PPState → Prop}
    (hd : ∀ st, P st → P (dispatchStep st)) :
    ∀ st : PPState, P st → P (dispatchAll st) := by
  intro st
  induction st using dispatchAll.induct with
  | case1 st h =>
      intro hp
      rw [dispatchAll]
      simp only [h, dif_pos]
      exact hp
  | case2 st h ih =>
      intro hp
      rw [dispatchAll]
      simp only [h, dif_neg]
      exact ih (hd st hp)

theorem dispatchAll_pending (st : PPState) : (dispatchAll st).pending = [] := by
  induction st using dispatchAll.induct with
  | case1 st h =>
      rw [dispatchAll]
      simpa [h] using h
  | case2 st h ih =>
      rw [dispatchAll]
      simp only [h, dif_neg]
      exact ih

theorem drain_closure (ext : ExtEnv) (stopOnError : Bool) {P : PPState → Prop}
    (he : ∀ k st, P st → P (execStep ext k st))
    (hc : ∀ k st, P st → P (collectStep stopOnError k st)) :
    ∀ st : PPState, P st → P (drain ext stopOnError st) := by
  refine drain.induct ext stopOnError
    (fun st => P st → P (drain ext stopOnError st)) ?_ ?_ ?_ ?_
  · intro st hs hp
    rw [drain, dif_pos hs]
    exact hp
  · intro st hs hd hq hp
    rw [drain, dif_neg hs, dif_pos hd, dif_pos hq]
    exact hp
  · intro st hs hd hq ih hp
    rw [drain, dif_neg hs, dif_pos hd, dif_neg hq]
    exact ih (he 0 st hp)
  · intro st hs hd ih hp
    rw [drain, dif_neg hs, dif_neg hd]
    exact ih (hc 0 st hp)

theorem drain_final (ext : ExtEnv) (stopOnError : Bool) :
    ∀ st : PPState,
    (drain ext stopOnError st).stop = true ∨
    ((drain ext stopOnError st).done = [] ∧ (drain ext stopOnError st).queue = []) := by
  refine drain.induct ext stopOnError
    (fun st => (drain ext stopOnError st).stop = true ∨
      ((drain ext stopOnError st).done = [] ∧ (drain ext stopOnError st).queue = []))
    ?_ ?_ ?_ ?_
  · intro st hs
    rw [drain, dif_pos hs]
    left
    exact hs
  · intro st hs hd hq
    rw [drain, dif_neg hs, dif_pos hd, dif_pos hq]
    right
    exact ⟨hd, hq⟩
  · intro st hs hd hq ih
    rw [drain, dif_neg hs, dif_pos hd, dif_neg hq]
    exact ih
  · intro st hs hd ih
    rw [drain, dif_neg hs, dif_neg hd]
    exact ih

/-! ## Aggregate counting facts -/

theorem updateProgress_fields (ext : ExtEnv) (sess : InstallSession)
    (pid : String) (st : InstallStatus) (pr : Nat) :
    (updateProgress ext sess pid st pr).1.total_packages = sess.total_packages ∧
    (updateProgress ext sess pid st pr).1.completed = sess.completed ∧
    (updateProgress ext sess pid st pr).1.failed = sess.failed ∧
    (updateProgress ext sess pid st pr).1.skipped = sess.skipped := by
  unfold updateProgress
  cases hl : dictLookup pid sess.tasks <;> simp

theorem handleExcept_fields (ext : ExtEnv) (sess : InstallSession) (pid e : String) :
    (handleExcept ext sess pid e).1.total_packages = sess.total_packages := by
  unfold handleExcept
  cases hl : dictLookup pid sess.tasks with
  | none => rfl
  | some t =>
      simp only []
      split <;> simp [(updateProgress_fields ext _ pid .failed 0).1]

theorem installPackage_total (ext : ExtEnv) (sess : InstallSession) (pid : String) :
    (installPackage ext sess pid).1.total_packages = sess.total_packages := by
  unfold installPackage
  cases h0 : dictLookup pid sess.tasks with
  | none => rfl
  | some t0 =>
      simp only []
      split
      · simp [(updateProgress_fields ext _ pid .installing 0).1]
      · split
        · simp [(updateProgress_fields ext _ pid .installing 0).1]
        · split
          · split
            · simp [(updateProgress_fields ext _ pid .success 100).1,
                (updateProgress_fields ext _ pid .installing 0).1]
            · simp [handleExcept_fields,
                (updateProgress_fields ext _ pid .success 100).1,
                (updateProgress_fields ext _ pid .installing 0).1]
          · split
            · simp [(updateProgress_fields ext _ pid .failed 0).1,
                (updateProgress_fields ext _ pid .installing 0).1]
            · simp [handleExcept_fields,
                (updateProgress_fields ext _ pid .failed 0).1,
                (updateProgress_fields ext _ pid .installing 0).1]

theorem mem_keys_of_lookup_isSome (k : String)
    (m : List (String × InstallTask)) (h : (dictLookup k m).isSome) :
    k ∈ dictKeys m := by
  induction m with
  | nil => simp [dictLookup] at h
  | cons hd tl ih =>
      obtain ⟨k', v'⟩ := hd
      by_cases hk : k' = k
      · simp [hk]
      · simp only [dictLookup, if_neg hk] at h
        simp [ih h]

theorem createSession_mem_keys (sid now : String) (pkgs : List SoftwarePackage)
    (p : SoftwarePackage) (hmem : p ∈ pkgs) :
    p.id ∈ dictKeys (createSession sid now pkgs).tasks := by
  have hfin := foldl_insert_keys_toFinset pkgs []
  have hmem2 : p.id ∈ (dictKeys (createSession sid now pkgs).tasks).toFinset := by
    show p.id ∈ (dictKeys
      (pkgs.foldl (fun m pkg => dictInsert pkg.id (newTask pkg) m) [])).toFinset
    rw [hfin]
    simp only [dictKeys_nil, List.toFinset_nil, Finset.empty_union]
    exact List.mem_toFinset.mpr (List.mem_map.mpr ⟨p, hmem, rfl⟩)
  exact List.mem_toFinset.mp hmem2

/-- Counters-only characterization of the sequential loop (no duplicate-id
assumption needed): each processed package bumps exactly one counter. -/
theorem seqLoop_counts (ext : ExtEnv) (hcb : CbOk ext) :
    ∀ (pkgs : List SoftwarePackage) (sess : InstallSession) (c f s : Nat),
    (∀ p ∈ pkgs, p.id ∈ dictKeys sess.tasks) →
    ∃ sess' c' f' s',
      seqLoop ext false pkgs sess c f s = .ok (sess', c', f', s') ∧
      c' + f' + s' = c + f + s + pkgs.length ∧
      sess'.total_packages = sess.total_packages := by
  intro pkgs
  induction pkgs with
  | nil =>
      intro sess c f s _
      exact ⟨sess, c, f, s, rfl, by simp, rfl⟩
  | cons p rest ih =>
      intro sess c f s hpres
      have hsome := dictLookup_isSome_of_mem_keys p.id sess.tasks (hpres p (by simp))
      cases hl : dictLookup p.id sess.tasks with
      | none => rw [hl] at hsome; simp at hsome
      | some t0 =>
          obtain ⟨tfin, hrun, hstat, hpk⟩ := installPackage_run ext hcb sess p.id t0 hl
          have hsetl : dictLookup p.id (dictSet p.id tfin sess.tasks) = some tfin :=
            dictLookup_set_self p.id tfin sess.tasks (by simp [hl])
          have hpres' : ∀ q ∈ rest, q.id ∈
              dictKeys ({ sess with
                tasks := dictSet p.id tfin sess.tasks } : InstallSession).tasks := by
            intro q hq
            have := hpres q (by simp [hq])
            simpa [dictKeys_set] using this
          obtain ⟨sess', c', f', s', hseq, hsum, htot⟩ :=
            ih { sess with tasks := dictSet p.id tfin sess.tasks }
              (c + (if tfin.status = .success then 1 else 0))
              (f + (if tfin.status = .success then 0 else 1)) s hpres'
          have hskip : tfin.status ≠ .skipped := by
            rw [hstat]
            cases ext.adapter t0.package <;> simp [adapterFinalStatus]
          refine ⟨sess', c', f', s', ?_, by
            by_cases hS : tfin.status = .success <;> simp [hS] at hsum ⊢ <;> omega,
            htot⟩
          rw [seqLoop.eq_def]
          simp only [hl, hrun, hsetl]
          by_cases hS : tfin.status = .success
          · simp only [hS, if_true, if_pos]
            simpa [hS] using hseq
          · simp only [if_neg hS, if_neg hskip]
            simpa [hS] using hseq

theorem dispatchStep_total (st : PPState) :
    (dispatchStep st).sess.total_packages = st.sess.total_packages := by
  unfold dispatchStep
  cases hp : st.pending with
  | nil => rfl
  | cons p rest =>
      by_cases hs : st.stop
      · simp [hs]
      · simp only [hs, if_false]
        by_cases hm : (checkDependencies st.sess p).1
        · simp [hm]
        · simp only [hm, if_false]
          cases dictLookup p.id st.sess.tasks <;> simp

theorem execStep_total (ext : ExtEnv) (k : Nat) (st : PPState) :
    (execStep ext k st).sess.total_packages = st.sess.total_packages := by
  unfold execStep
  cases hq : st.queue.get? k with
  | none => rfl
  | some pid => simp [installPackage_total]

theorem collectStep_queue (stopOnError : Bool) (k : Nat) (st : PPState) :
    (collectStep stopOnError k st).queue = st.queue := by
  unfold collectStep
  by_cases hs : st.stop
  · simp [hs]
  · simp only [hs, if_false]
    cases hd : st.done.get? k with
    | none => simp
    | some d =>
        obtain ⟨pid, r⟩ := d
        cases r with
        | error e => simp
        | ok b =>
            cases hl : dictLookup pid st.sess.tasks with
            | none => simp [hl]
            | some t =>
                by_cases h1 : t.status = .success
                · simp [hl, h1]
                · by_cases h2 : t.status = .skipped
                  · simp [hl, h1, h2]
                  · by_cases h3 : stopOnError <;> simp [hl, h1, h2, h3]

theorem execStep_le (total : Nat) (ext : ExtEnv) (k : Nat) (st : PPState)
    (h : counterSum st + pendingLoad st ≤ total) :
    counterSum (execStep ext k st) + pendingLoad (execStep ext k st) ≤ total := by
  obtain ⟨he1, he2⟩ := execStep_load ext k st
  omega

theorem collectStep_le (total : Nat) (stopOnError : Bool) (k : Nat) (st : PPState)
    (h : counterSum st + pendingLoad st ≤ total) :
    counterSum (collectStep stopOnError k st) +
      pendingLoad (collectStep stopOnError k st) ≤ total := by
  have hcs := collectStep_sum stopOnError k st
  omega

/-- Aggregate counter facts for one full parallel run: the counters never
exceed the number of packages, the package total is untouched, and — with
`stop_on_error` unset and all ids present — they account for every package
exactly. -/
theorem parallelInstall_counts (ext : ExtEnv) (stopOnError : Bool)
    (sess : InstallSession) (pkgs : List SoftwarePackage)
    (evts1 : List (Option Nat)) (evts2 : List (Bool × Nat)) :
    (parallelInstall ext stopOnError sess pkgs evts1 evts2).completed +
      (parallelInstall ext stopOnError sess pkgs evts1 evts2).failed +
      (parallelInstall ext stopOnError sess pkgs evts1 evts2).skipped ≤ pkgs.length ∧
    (parallelInstall ext stopOnError sess pkgs evts1 evts2).total_packages =
      sess.total_packages ∧
    (stopOnError = false → (∀ p ∈ pkgs, p.id ∈ dictKeys sess.tasks) →
      (parallelInstall ext stopOnError sess pkgs evts1 evts2).completed +
        (parallelInstall ext stopOnError sess pkgs evts1 evts2).failed +
        (parallelInstall ext stopOnError sess pkgs evts1 evts2).skipped = pkgs.length) := by
  unfold parallelInstall
  simp only []
  set st0 : PPState :=
    { sess := sess, pending := pkgs, queue := [], done := []
      comp := 0, fail := 0, skip := 0, stop := false } with hst0
  set st1 := dispatchAll (runPhase1 ext evts1 st0) with hst1
  set st2 := drain ext stopOnError (runPhase2 ext stopOnError evts2 st1) with hst2
  have hle : counterSum st2 + pendingLoad st2 ≤ pkgs.length := by
    have h0 : counterSum st0 + pendingLoad st0 ≤ pkgs.length := by
      simp [counterSum, pendingLoad, hst0]
    have h1 := dispatchAll_closure (P := fun st =>
        counterSum st + pendingLoad st ≤ pkgs.length)
      (fun st h => dispatchStep_le pkgs.length st h)
      _ (runPhase1_closure ext (fun st h => dispatchStep_le pkgs.length st h)
        (fun k st h => execStep_le pkgs.length ext k st h) evts1 st0 h0)
    exact drain_closure ext stopOnError
      (fun k st h => execStep_le pkgs.length ext k st h)
      (fun k st h => collectStep_le pkgs.length stopOnError k st h)
      _ (runPhase2_closure ext stopOnError
        (fun k st h => execStep_le pkgs.length ext k st h)
        (fun k st h => collectStep_le pkgs.length stopOnError k st h)
        evts2 st1 h1)
  have htot : st2.sess.total_packages = sess.total_packages := by
    have h0 : st0.sess.total_packages = sess.total_packages := rfl
    have h1 := dispatchAll_closure (P := fun st =>
        st.sess.total_packages = sess.total_packages)
      (fun st h => (dispatchStep_total st).trans h)
      _ (runPhase1_closure ext
        (fun st h => (dispatchStep_total st).trans h)
        (fun k st h => (execStep_total ext k st).trans h) evts1 st0 h0)
    exact drain_closure ext stopOnError
      (fun k st h => (execStep_total ext k st).trans h)
      (fun k st h => (congrArg InstallSession.total_packages
        (collectStep_sess stopOnError k st).1).trans h)
      _ (runPhase2_closure ext stopOnError
        (fun k st h => (execStep_total ext k st).trans h)
        (fun k st h => (congrArg InstallSession.total_packages
          (collectStep_sess stopOnError k st).1).trans h)
        evts2 st1 h1)
  refine ⟨by simp only [counterSum, pendingLoad] at hle; omega, htot, ?_⟩
  intro hso hkeys
  subst hso
  have hQ0 : (counterSum st0 + pendingLoad st0 = pkgs.length) ∧ PKeys st0 ∧
      st0.stop = false := by
    refine ⟨by simp [counterSum, pendingLoad, hst0], ?_, rfl⟩
    intro p hp
    exact hkeys p hp
  have hdisp : ∀ st, (counterSum st + pendingLoad st = pkgs.length) ∧ PKeys st ∧
      st.stop = false →
      (counterSum (dispatchStep st) + pendingLoad (dispatchStep st) = pkgs.length) ∧
      PKeys (dispatchStep st) ∧ (dispatchStep st).stop = false := by
    intro st ⟨h1, h2, h3⟩
    exact ⟨dispatchStep_eq pkgs.length st h3 h2 h1, dispatchStep_pkeys st h2,
      by rw [dispatchStep_stop]; exact h3⟩
  have hexec : ∀ k st, (counterSum st + pendingLoad st = pkgs.length) ∧ PKeys st ∧
      st.stop = false →
      (counterSum (execStep ext k st) + pendingLoad (execStep ext k st) = pkgs.length) ∧
      PKeys (execStep ext k st) ∧ (execStep ext k st).stop = false := by
    intro k st ⟨h1, h2, h3⟩
    obtain ⟨he1, he2⟩ := execStep_load ext k st
    exact ⟨by omega, execStep_pkeys ext k st h2, by rw [execStep_stop]; exact h3⟩
  have hcoll : ∀ k st, (counterSum st + pendingLoad st = pkgs.length) ∧ PKeys st ∧
      st.stop = false →
      (counterSum (collectStep false k st) + pendingLoad (collectStep false k st) =
        pkgs.length) ∧
      PKeys (collectStep false k st) ∧ (collectStep false k st).stop = false := by
    intro k st ⟨h1, h2, h3⟩
    have hcs := collectStep_sum false k st
    exact ⟨by omega, collectStep_pkeys false k st h2,
      by rw [collectStep_stop_false]; exact h3⟩
  have hQ2 : (counterSum st2 + pendingLoad st2 = pkgs.length) ∧ PKeys st2 ∧
      st2.stop = false := by
    have h1 := dispatchAll_closure (P := fun st =>
        (counterSum st + pendingLoad st = pkgs.length) ∧ PKeys st ∧ st.stop = false)
      hdisp _ (runPhase1_closure ext hdisp hexec evts1 st0 hQ0)
    exact drain_closure ext false hexec hcoll _
      (runPhase2_closure ext false hexec hcoll evts2 st1 h1)
  have hpend : st2.pending = [] := by
    have h1 : st1.pending = [] := dispatchAll_pending _
    have h2 := drain_closure ext false (P := fun st => st.pending = [])
      (fun k st h => (execStep_pending ext k st).trans h)
      (fun k st h => ((collectStep_sess false k st).2).trans h)
      _ (runPhase2_closure ext false
        (fun k st h => (execStep_pending ext k st).trans h)
        (fun k st h => ((collectStep_sess false k st).2).trans h)
        evts2 st1 h1)
    exact h2
  have hfin := drain_final ext false (runPhase2 ext false evts2 st1)
  rw [← hst2] at hfin
  rcases hfin with hstop | ⟨hdone, hqueue⟩
  · rw [hQ2.2.2] at hstop
    simp at hstop
  · have hz : pendingLoad st2 = 0 := by
      unfold pendingLoad
      rw [hpend, hdone, hqueue]
      simp
    have hq := hQ2.1
    unfold counterSum at hq
    omega

/-! ## Unfolding helpers for the well-founded parallel loops -/

theorem dispatchAll_eq_self (st : PPState) (h : st.pending = []) :
    dispatchAll st = st := by
  rw [dispatchAll, dif_pos h]

theorem drain_eq_self (ext : ExtEnv) (stopOnError : Bool) (st : PPState)
    (h1 : st.stop = false) (h2 : st.done = []) (h3 : st.queue = []) :
    drain ext stopOnError st = st := by
  rw [drain, dif_neg (by simp [h1]), dif_pos h2, dif_pos h3]

/-- The sequential loop returns an `.ok` tuple whenever every listed id has
a task and the callback never raises: each branch of the body recurses on a
session with the same key set or stops with `.ok`. -/
theorem seqLoop_ok (ext : ExtEnv) (hcb : CbOk ext) (stopOnError : Bool) :
    ∀ (pkgs : List SoftwarePackage) (sess : InstallSession) (c f s : Nat),
    (∀ p ∈ pkgs, p.id ∈ dictKeys sess.tasks) →
    ∃ out, seqLoop ext stopOnError pkgs sess c f s = .ok out := by
  intro pkgs
  induction pkgs with
  | nil =>
      intro sess c f s _
      exact ⟨(sess, c, f, s), rfl⟩
  | cons p rest ih =>
      intro sess c f s hpres
      have hsome := dictLookup_isSome_of_mem_keys p.id sess.tasks (hpres p (by simp))
      cases hl : dictLookup p.id sess.tasks with
      | none => rw [hl] at hsome; simp at hsome
      | some t0 =>
          obtain ⟨tfin, hrun, hstat, hpk⟩ := installPackage_run ext hcb sess p.id t0 hl
          have hsetl : dictLookup p.id (dictSet p.id tfin sess.tasks) = some tfin :=
            dictLookup_set_self p.id tfin sess.tasks (by simp [hl])
          have hpres' : ∀ q ∈ rest, q.id ∈ dictKeys
              ({ sess with
                  tasks := dictSet p.id tfin sess.tasks } : InstallSession).tasks := by
            intro q hq
            have := hpres q (by simp [hq])
            simpa [dictKeys_set] using this
          rw [seqLoop.eq_def]
          simp only [hl, hrun, hsetl]
          by_cases h1 : tfin.status = .success
          · rw [if_pos h1]
            exact ih _ (c + 1) f s hpres'
          · rw [if_neg h1]
            by_cases h2 : tfin.status = .skipped
            · rw [if_pos h2]
              exact ih _ c f (s + 1) hpres'
            · rw [if_neg h2]
              by_cases h3 : stopOnError
              · rw [if_pos h3]
                exact ⟨_, rfl⟩
              · rw [if_neg h3]
                exact ih _ c (f + 1) s hpres'

/-! ## Concrete scenario inputs

Small closed packages and environments used to evaluate the model on the
spec's test scenarios. -/

/-- An environment whose adapter always succeeds, with no registered
progress callback. -/
def okEnv : ExtEnv :=
  { adapter := fun _ => .success ["ok"]
    progressCallback := none
    appendPathOk := fun _ => true
    setEnvOk := fun _ _ => true
    postCmd := fun _ => .ok ()
    now := "t0" }

/-- An adapter that fails for package id `"a"` and succeeds otherwise. -/
def mixedEnv : ExtEnv :=
  { okEnv with
      adapter := fun p => if p.id = "a" then .failure ["boom"] else .success [] }

/-- An adapter that reports every package as already installed. -/
def alreadyEnv : ExtEnv :=
  { okEnv with adapter := fun _ => .alreadyInstalled ["already installed"] }

/-- A progress callback that raises on every INSTALLING update and returns
normally on the others. -/
def boomEnv : ExtEnv :=
  { okEnv with
      progressCallback :=
        some (fun _ st _ => if st = .installing then .error "boom" else .ok ()) }

/-- A package whose only dependency id never has a task in a session built
from a list that does not contain it. -/
def pkgGhostDep : SoftwarePackage :=
  { id := "g", name := "g", dependencies := ["ghost"] }

def pkgFailA : SoftwarePackage := { id := "a", name := "a", priority := .critical }

def pkgDepB : SoftwarePackage :=
  { id := "b", name := "b", priority := .normal, dependencies := ["a"] }

def pkgPlain : SoftwarePackage := { id := "p", name := "p" }

def pkgLow : SoftwarePackage := { id := "low", name := "low", priority := .low }

def pkgCrit : SoftwarePackage :=
  { id := "crit", name := "crit", priority := .critical }

def pkgNorm : SoftwarePackage :=
  { id := "norm", name := "norm", priority := .normal }

def pkgSrc : SoftwarePackage := { id := "s", name := "s", source := some "winget" }

def pkgDup1 : SoftwarePackage := { id := "d", name := "first" }

def pkgDup2 : SoftwarePackage := { id := "d", name := "second" }

/-- A parallel-machine state whose next pending package has a present but
FAILED dependency. -/
def stFix : PPState :=
  { sess := { session_id := "sid"
              start_time := "t0"
              total_packages := 2
              tasks := [("a", { newTask pkgFailA with status := .failed }),
                ("b", newTask pkgDepB)] }
    pending := [pkgDepB]
    queue := []
    done := []
    comp := 0
    fail := 1
    skip := 0
    stop := false }

/-! ## The claims -/

/-- C7: `_sort_by_priority` dispatches in ascending priority order and the
sort is stable: for every input list the result is exactly the CRITICAL
block, then HIGH, then NORMAL, then LOW, each block in original submission
order; the result is a permutation of the input; and input priorities
[LOW, CRITICAL, NORMAL] yield dispatch order [CRITICAL, NORMAL, LOW]. -/
theorem c7_theorem :
    (∀ l : List SoftwarePackage,
      sortByPriority l =
        filterByPriority 0 l ++ filterByPriority 1 l ++
        filterByPriority 2 l ++ filterByPriority 3 l) ∧
    (∀ l : List SoftwarePackage, List.Perm (sortByPriority l) l) ∧
    sortByPriority [pkgLow, pkgCrit, pkgNorm] = [pkgCrit, pkgNorm, pkgLow] :=
  ⟨sortByPriority_eq_filter_blocks, sortByPriority_perm, by decide⟩

/-- C8 counterexample: a package whose `source` field is set does not
round-trip through the config export — `load_config_file` rebuilds it with
`source = None`, because `generate_config_file` never serializes that
field. -/
theorem c8_counterexample :
    pkgSrc.source = some "winget" ∧
    loadConfigFile (generateConfigFile "ts" [pkgSrc]) = .ok [dropSource pkgSrc] ∧
    dropSource pkgSrc ≠ pkgSrc ∧
    loadConfigFile (generateConfigFile "ts" [pkgSrc]) ≠ .ok [pkgSrc] := by
  decide

/-- C8 (amended): the config export round-trips every serialized field —
id, name, version, category, priority (ordinal to the same enum member),
dependencies, post_install, env_vars, path_additions — but drops `source`,
which loads back as `None`; consequently dumping the loaded list again
yields a dump equal to the original. -/
theorem c8_theorem (ts : String) (pkgs : List SoftwarePackage) :
    loadConfigFile (generateConfigFile ts pkgs) = .ok (pkgs.map dropSource) ∧
    generateConfigFile ts (pkgs.map dropSource) = generateConfigFile ts pkgs := by
  refine ⟨loadConfigFile_generateConfigFile ts pkgs, ?_⟩
  simp only [generateConfigFile, List.map_map]
  congr 1

/-- C10: `create_session` keys tasks by package id, so it holds exactly one
task per distinct id — the binding is the task of the **latest** descriptor
with that id (dict assignment overwrites in place) — while `total_packages`
is the full input length; hence duplicate ids make the number of tasks
strictly smaller than `total_packages`. -/
theorem c10_theorem (sid now : String) (pkgs : List SoftwarePackage)
    (i : String) :
    dictLookup i (createSession sid now pkgs).tasks =
      (List.find? (fun p => p.id = i) pkgs.reverse).map newTask ∧
    (createSession sid now pkgs).total_packages = pkgs.length ∧
    (createSession sid now pkgs).tasks.length =
      (pkgs.map SoftwarePackage.id).toFinset.card ∧
    (¬ (pkgs.map SoftwarePackage.id).Nodup →
      (createSession sid now pkgs).tasks.length <
        (createSession sid now pkgs).total_packages) := by
  refine ⟨createSession_lookup sid now i pkgs, rfl,
    createSession_tasks_length sid now pkgs, fun h => ?_⟩
  rw [createSession_tasks_length]
  have hlt := toFinset_card_lt_of_not_nodup _ h
  rw [List.length_map] at hlt
  exact hlt

/-- C10 witness: two descriptors sharing id `"d"` give a session with one
task but `total_packages = 2`, and the stored task is the second
descriptor's. -/
theorem c10_witness :
    ¬ (([pkgDup1, pkgDup2].map SoftwarePackage.id).Nodup) ∧
    (createSession "sid" "t0" [pkgDup1, pkgDup2]).tasks.length <
      (createSession "sid" "t0" [pkgDup1, pkgDup2]).total_packages ∧
    dictLookup "d" (createSession "sid" "t0" [pkgDup1, pkgDup2]).tasks =
      some (newTask pkgDup2) := by
  have h := c10_theorem "sid" "t0" [pkgDup1, pkgDup2] "d"
  exact ⟨by decide, h.2.2.2 (by decide), by rw [h.1]; decide⟩

/-- C9 counterexample: with PATH `"a"`, appending the same path written as
`"A"` is **not** detected as present (the membership test is
case-sensitive), so the case-insensitively-equal component now occurs
twice. -/
theorem c9_counterexample :
    appendToPath [] ['a'] "end" = ['a'] ∧
    lowerChars ['A'] = lowerChars ['a'] ∧
    appendToPath (appendToPath [] ['a'] "end") ['A'] "end" = ['a', ';', 'A'] ∧
    countCaseInsensitive
      (appendToPath (appendToPath [] ['a'] "end") ['A'] "end") ['A'] = 2 := by
  decide

/-- C9 (amended): `append_to_path` is idempotent under **exact**
(case-sensitive) comparison of the already-normalized path: appending a
nonempty, separator-free path that is not yet a component leaves exactly
one occurrence, and appending the identical spelling again changes
nothing — a different letter case is treated as a new component. -/
theorem c9_theorem (cur p : List Char) (pos : String)
    (hne : p ≠ []) (hsemi : ';' ∉ p) :
    appendToPath (appendToPath cur p pos) p pos = appendToPath cur p pos ∧
    (p ∉ splitSemi cur → (splitSemi (appendToPath cur p pos)).count p = 1) :=
  ⟨appendToPath_idem cur p pos hne hsemi,
    fun hmem => count_appendToPath_new cur p pos hne hsemi hmem⟩

/-- C9 witness: appending `"b"` to PATH `"a"` once yields one `"b"`
component, and a second identical append is a no-op. -/
theorem c9_witness :
    (['b'] : List Char) ≠ [] ∧ ';' ∉ (['b'] : List Char) ∧
    appendToPath (appendToPath ['a'] ['b'] "end") ['b'] "end" =
      appendToPath ['a'] ['b'] "end" ∧
    (splitSemi (appendToPath ['a'] ['b'] "end")).count ['b'] = 1 := by
  have h := c9_theorem ['a'] ['b'] "end" (by decide) (by decide)
  exact ⟨by decide, by decide, h.1, h.2 (by decide)⟩

/-- C2: with no progress callback registered, `install_all` returns a
session normally for every package list, every adapter behaviour (success,
already-installed, failure, raised exception), and both dispatch modes —
worker failures are folded into the returned session, never raised. -/
theorem c2_theorem (ext : ExtEnv) (hcb : ext.progressCallback = none)
    (sid : String) (pkgs : List SoftwarePackage) (parallel stopOnError : Bool)
    (evts1 : List (Option Nat)) (evts2 : List (Bool × Nat)) :
    ∃ s, installAll ext sid pkgs parallel stopOnError evts1 evts2 = .ok s := by
  have hcb' : CbOk ext := fun pid st pr => by simp [cbRun, hcb]
  simp only [installAll]
  by_cases hp : parallel
  · rw [if_pos hp]
    exact ⟨_, rfl⟩
  · rw [if_neg hp]
    simp only [sequentialInstall]
    obtain ⟨⟨sess', c, f, s⟩, hout⟩ := seqLoop_ok ext hcb' stopOnError
      (sortByPriority pkgs) (createSession sid ext.now pkgs) 0 0 0
      (fun p hp2 =>
        createSession_mem_keys sid ext.now pkgs p (mem_sortByPriority.mp hp2))
    rw [hout]
    exact ⟨_, rfl⟩

/-- C2 witness: a sequential `stop_on_error` run in which the first package
fails still returns a session normally. -/
theorem c2_witness :
    mixedEnv.progressCallback = none ∧
    ∃ s, installAll mixedEnv "sid" [pkgFailA, pkgDepB] false true [] [] = .ok s :=
  ⟨rfl, c2_theorem mixedEnv rfl "sid" [pkgFailA, pkgDepB] false true [] []⟩

/-- C3 counterexample: sequential mode has no dependency gate.  Package
`"b"` depends on `"a"`; the adapter fails `"a"`, so at `"b"`'s turn the
dependency is unmet — yet `"b"` is executed anyway and ends SUCCESS, and
nothing is SKIPPED. -/
theorem c3_counterexample :
    pkgDepB.dependencies = ["a"] ∧
    ((installAll mixedEnv "sid" [pkgFailA, pkgDepB] false false [] []).map
      (fun s => ((dictLookup "a" s.tasks).map InstallTask.status,
        (dictLookup "b" s.tasks).map InstallTask.status, s.skipped))) =
      .ok (some .failed, some .success, 0) := by
  exact ⟨rfl, by decide⟩

/-- C3 (amended): in sequential mode each task runs `_install_package`
directly — **no** dependency gate is evaluated, so under a non-raising
callback every listed package reaches the adapter and ends with the
adapter-determined terminal status regardless of its dependencies; the
`stop_on_error` half of the claim holds: after a prefix of successes the
first FAILED task stops the loop immediately, leaving all later tasks
untouched. -/
theorem c3_theorem (ext : ExtEnv) (hcb : CbOk ext) :
    (∀ (pkgs : List SoftwarePackage) (sess : InstallSession) (c f s : Nat),
      (pkgs.map SoftwarePackage.id).Nodup →
      (∀ p ∈ pkgs, ∃ tp, dictLookup p.id sess.tasks = some tp ∧ tp.package = p) →
      ∃ sess' c' f' s',
        seqLoop ext false pkgs sess c f s = .ok (sess', c', f', s') ∧
        ∀ p ∈ pkgs, ∃ t', dictLookup p.id sess'.tasks = some t' ∧
          t'.status = adapterFinalStatus (ext.adapter p)) ∧
    (∀ (good : List SoftwarePackage) (b : SoftwarePackage)
        (rest2 : List SoftwarePackage) (sess : InstallSession) (c f s : Nat),
      ((good ++ b :: rest2).map SoftwarePackage.id).Nodup →
      (∀ p ∈ good ++ b :: rest2, ∃ tp,
        dictLookup p.id sess.tasks = some tp ∧ tp.package = p) →
      (∀ p ∈ good, adapterFinalStatus (ext.adapter p) = .success) →
      adapterFinalStatus (ext.adapter b) = .failed →
      ∃ sess',
        seqLoop ext true (good ++ b :: rest2) sess c f s =
          .ok (sess', c + good.length, f + 1, s) ∧
        (∀ q, (∀ p ∈ good, q ≠ p.id) → q ≠ b.id →
          dictLookup q sess'.tasks = dictLookup q sess.tasks)) := by
  constructor
  · intro pkgs sess c f s hnd hpres
    obtain ⟨sess', c', f', s', h1, _, _, h4⟩ :=
      seqLoop_run_noStop ext hcb pkgs sess c f s hnd hpres
    exact ⟨sess', c', f', s', h1,
      fun p hp => (h4 p hp).imp (fun t' ht => ⟨ht.1, ht.2.1⟩)⟩
  · exact seqLoop_run_stop ext hcb

/-- C3 witness: the single package `"g"` has an unmet dependency, yet the
sequential loop installs it to the adapter's SUCCESS status. -/
theorem c3_witness :
    ∃ sess' c' f' s',
      seqLoop okEnv false [pkgGhostDep]
        (createSession "sid" "t0" [pkgGhostDep]) 0 0 0 =
        .ok (sess', c', f', s') ∧
      ∀ p ∈ [pkgGhostDep], ∃ t', dictLookup p.id sess'.tasks = some t' ∧
        t'.status = adapterFinalStatus (okEnv.adapter p) := by
  have h := (c3_theorem okEnv (fun _ _ _ => rfl)).1 [pkgGhostDep]
    (createSession "sid" "t0" [pkgGhostDep]) 0 0 0 (by decide)
    (fun p hp => by
      rcases List.mem_singleton.mp hp with rfl
      exact ⟨newTask pkgGhostDep, by decide, rfl⟩)
  exact h

/-- C4 counterexample: in the already-installed case the task's status is
set to the terminal SKIPPED inside `_install_with_winget` and then
overwritten to SUCCESS by `_install_package` — a transition out of a
terminal status. -/
theorem c4_counterexample :
    (installPackage alreadyEnv (createSession "sid" "t0" [pkgPlain]) "p").2.1 =
      [.installing, .installing, .skipped, .success, .success] ∧
    ((dictLookup "p" (installPackage alreadyEnv
        (createSession "sid" "t0" [pkgPlain]) "p").1.tasks).map
      InstallTask.status) = some .success := by
  decide

/-- C4 (amended): with a non-raising callback the task's status writes
during `_install_package` follow exactly `installLog` of the adapter
outcome and the task ends at `adapterFinalStatus`; the sequence is
forward-only except in the already-installed case, where the terminal
SKIPPED is subsequently overwritten to SUCCESS. -/
theorem c4_theorem (ext : ExtEnv) (hcb : CbOk ext) (sess : InstallSession)
    (pid : String) (t0 : InstallTask)
    (h : dictLookup pid sess.tasks = some t0) :
    (∃ tfin, installPackage ext sess pid =
      ({ sess with tasks := dictSet pid tfin sess.tasks },
        installLog (ext.adapter t0.package),
        .ok (adapterReturnsOk (ext.adapter t0.package))) ∧
      tfin.status = adapterFinalStatus (ext.adapter t0.package)) ∧
    (∀ out, installLog (.alreadyInstalled out) =
        [.installing, .installing, .skipped, .success, .success] ∧
      adapterFinalStatus (.alreadyInstalled out) = .success) := by
  obtain ⟨tfin, h1, h2, _⟩ := installPackage_run ext hcb sess pid t0 h
  exact ⟨⟨tfin, h1, h2⟩, fun out => ⟨rfl, rfl⟩⟩

/-- C4 witness: the already-installed scenario on a fresh one-package
session, instantiated from the amended claim. -/
theorem c4_witness :
    dictLookup "p" (createSession "sid" "t0" [pkgPlain]).tasks =
      some (newTask pkgPlain) ∧
    ∃ tfin, installPackage alreadyEnv (createSession "sid" "t0" [pkgPlain]) "p" =
      ({ createSession "sid" "t0" [pkgPlain] with
          tasks := dictSet "p" tfin (createSession "sid" "t0" [pkgPlain]).tasks },
        installLog (alreadyEnv.adapter (newTask pkgPlain).package),
        .ok (adapterReturnsOk (alreadyEnv.adapter (newTask pkgPlain).package))) ∧
      tfin.status = adapterFinalStatus (alreadyEnv.adapter (newTask pkgPlain).package) := by
  have h := c4_theorem alreadyEnv (fun _ _ _ => rfl)
    (createSession "sid" "t0" [pkgPlain]) "p" (newTask pkgPlain) (by decide)
  exact ⟨by decide, h.1⟩

/-- C5 counterexample: a sequential `stop_on_error` run that finishes
without any cancellation but with `completed+failed+skipped = 1 <
total_packages = 2`: the first (CRITICAL) package fails and the loop breaks
before the second is ever counted. -/
theorem c5_counterexample :
    ((installAll mixedEnv "sid" [pkgFailA, pkgPlain] false true [] []).map
      (fun s => (s.completed + s.failed + s.skipped, s.total_packages))) =
      .ok (1, 2) := by
  decide

/-- Counter bound for the sequential loop under either `stop_on_error`
setting: each processed package bumps exactly one counter, so the sum grows
by at most one per package — exactly one when the loop never breaks — and a
`stop_on_error` break only drops the unprocessed tail. -/
theorem seqLoop_le (ext : ExtEnv) (hcb : CbOk ext) (stopOnError : Bool) :
    ∀ (pkgs : List SoftwarePackage) (sess : InstallSession) (c f s : Nat),
    (∀ p ∈ pkgs, p.id ∈ dictKeys sess.tasks) →
    ∃ sess' c' f' s',
      seqLoop ext stopOnError pkgs sess c f s = .ok (sess', c', f', s') ∧
      c' + f' + s' ≤ c + f + s + pkgs.length ∧
      (stopOnError = false → c' + f' + s' = c + f + s + pkgs.length) ∧
      sess'.total_packages = sess.total_packages := by
  intro pkgs
  induction pkgs with
  | nil =>
      intro sess c f s _
      exact ⟨sess, c, f, s, rfl, by simp, by simp, rfl⟩
  | cons p rest ih =>
      intro sess c f s hpres
      have hsome := dictLookup_isSome_of_mem_keys p.id sess.tasks (hpres p (by simp))
      cases hl : dictLookup p.id sess.tasks with
      | none => rw [hl] at hsome; simp at hsome
      | some t0 =>
          obtain ⟨tfin, hrun, hstat, hpk⟩ := installPackage_run ext hcb sess p.id t0 hl
          have hsetl : dictLookup p.id (dictSet p.id tfin sess.tasks) = some tfin :=
            dictLookup_set_self p.id tfin sess.tasks (by simp [hl])
          have hpres' : ∀ q ∈ rest, q.id ∈
              dictKeys ({ sess with
                tasks := dictSet p.id tfin sess.tasks } : InstallSession).tasks := by
            intro q hq
            have := hpres q (by simp [hq])
            simpa [dictKeys_set] using this
          have hskip : tfin.status ≠ .skipped := by
            rw [hstat]
            cases ext.adapter t0.package <;> simp [adapterFinalStatus]
          rw [seqLoop.eq_def]
          simp only [hl, hrun, hsetl]
          by_cases hS : tfin.status = .success
          · obtain ⟨sess', c', f', s', hseq, hle, heq, htot⟩ :=
              ih { sess with tasks := dictSet p.id tfin sess.tasks } (c + 1) f s hpres'
            rw [if_pos hS]
            refine ⟨sess', c', f', s', hseq, ?_, ?_, htot⟩
            · simp only [List.length_cons]
              omega
            · intro hso
              have := heq hso
              simp only [List.length_cons]
              omega
          · rw [if_neg hS, if_neg hskip]
            by_cases hso : stopOnError
            · rw [if_pos hso]
              refine ⟨_, c, f + 1, s, rfl, ?_, ?_, rfl⟩
              · simp only [List.length_cons]
                omega
              · intro h
                rw [h] at hso
                simp at hso
            · rw [if_neg hso]
              obtain ⟨sess', c', f', s', hseq, hle, heq, htot⟩ :=
                ih { sess with tasks := dictSet p.id tfin sess.tasks } c (f + 1) s hpres'
              refine ⟨sess', c', f', s', hseq, ?_, ?_, htot⟩
              · simp only [List.length_cons]
                omega
              · intro h
                have := heq h
                simp only [List.length_cons]
                omega

/-- C5 (amended): every session returned by `install_all` — in either
dispatch mode and under either `stop_on_error` setting — satisfies
`completed+failed+skipped ≤ total_packages`, and the sum is exactly
`total_packages` when `stop_on_error` is off — but a `stop_on_error`
short-circuit can finish the run with a strict inequality. -/
theorem c5_theorem (ext : ExtEnv) (hcb : ext.progressCallback = none)
    (sid : String) (pkgs : List SoftwarePackage) (stopOnError : Bool)
    (evts1 : List (Option Nat)) (evts2 : List (Bool × Nat)) :
    (∀ s, installAll ext sid pkgs true stopOnError evts1 evts2 = .ok s →
      s.completed + s.failed + s.skipped ≤ s.total_packages ∧
      (stopOnError = false →
        s.completed + s.failed + s.skipped = s.total_packages)) ∧
    (∀ s, installAll ext sid pkgs false stopOnError evts1 evts2 = .ok s →
      s.completed + s.failed + s.skipped ≤ s.total_packages ∧
      (stopOnError = false →
        s.completed + s.failed + s.skipped = s.total_packages)) := by
  have hcb' : CbOk ext := fun pid st pr => by simp [cbRun, hcb]
  have hsortlen : (sortByPriority pkgs).length = pkgs.length :=
    (sortByPriority_perm pkgs).length_eq
  have hkeys : ∀ p ∈ sortByPriority pkgs,
      p.id ∈ dictKeys (createSession sid ext.now pkgs).tasks :=
    fun p hp => createSession_mem_keys sid ext.now pkgs p (mem_sortByPriority.mp hp)
  constructor
  · intro s hs
    simp only [installAll, if_true] at hs
    obtain ⟨hle2, htot2, heq2⟩ := parallelInstall_counts ext stopOnError
      (createSession sid ext.now pkgs) (sortByPriority pkgs) evts1 evts2
    have hseq : parallelInstall ext stopOnError (createSession sid ext.now pkgs)
        (sortByPriority pkgs) evts1 evts2 = s := Except.ok.inj hs
    have htp : s.total_packages = pkgs.length := by
      rw [← hseq, htot2]
      rfl
    constructor
    · rw [htp, ← hsortlen, ← hseq]
      exact hle2
    · intro hso
      subst hso
      rw [htp, ← hsortlen, ← hseq]
      exact heq2 rfl hkeys
  · intro s hs
    simp only [installAll, Bool.false_eq_true, if_false] at hs
    obtain ⟨sess', c', f', s', hloop, hle, heqf, htot⟩ := seqLoop_le ext hcb'
      stopOnError (sortByPriority pkgs) (createSession sid ext.now pkgs) 0 0 0 hkeys
    rw [sequentialInstall, hloop] at hs
    have hse := Except.ok.inj hs
    rw [← hse]
    have htp : sess'.total_packages = pkgs.length := htot
    rw [hsortlen] at hle heqf
    constructor
    · show c' + f' + s' ≤ sess'.total_packages
      rw [htp]
      omega
    · intro hso
      show c' + f' + s' = sess'.total_packages
      rw [htp]
      have := heqf hso
      omega

/-- C5 witness: a no-stop sequential run returns a session whose counters
sum exactly to `total_packages`, and a `stop_on_error` sequential run in
which the first package fails still satisfies the bound. -/
theorem c5_witness :
    (∃ s, installAll okEnv "sid" [pkgPlain] false false [] [] = .ok s ∧
      s.completed + s.failed + s.skipped = s.total_packages) ∧
    (∃ s, installAll mixedEnv "sid" [pkgFailA, pkgPlain] false true [] [] = .ok s ∧
      s.completed + s.failed + s.skipped ≤ s.total_packages) := by
  have h1 := (c5_theorem okEnv rfl "sid" [pkgPlain] false [] []).2
  have h2 := (c5_theorem mixedEnv rfl "sid" [pkgFailA, pkgPlain] true [] []).2
  exact ⟨⟨_, rfl, (h1 _ rfl).2 rfl⟩, ⟨_, rfl, (h2 _ rfl).1⟩⟩

/-- C6 counterexample: a progress callback raising on the INSTALLING update
crashes the whole sequential run — `install_all` raises instead of
returning the session. -/
theorem c6_counterexample :
    installAll boomEnv "sid" [pkgPlain] false false [] [] = .error "boom" := by
  decide

/-- C6 (amended): a raising progress callback is **not** swallowed:
`_update_progress` returns the callback's exception as-is (the task is
already mutated); a raise on the SUCCESS update is caught by the task-level
handler, which flips the otherwise successful task to FAILED recording the
callback's message; a raise on the initial INSTALLING update (before the
`try` block) escapes `_install_package` entirely; and in sequential mode it
propagates out of the install loop. -/
theorem c6_theorem (ext : ExtEnv) (sess : InstallSession) (pid : String)
    (t0 : InstallTask) (e : String)
    (h : dictLookup pid sess.tasks = some t0) :
    (∀ st pr, (updateProgress ext sess pid st pr).2 = cbRun ext pid st pr) ∧
    (∀ out, ext.adapter t0.package = .success out →
      (∀ pr, cbRun ext pid .installing pr = .ok ()) →
      (∀ pr, cbRun ext pid .success pr = .error e) →
      (∀ pr, cbRun ext pid .failed pr = .ok ()) →
      ∃ tfin, installPackage ext sess pid =
        ({ sess with tasks := dictSet pid tfin sess.tasks },
          [.installing, .installing, .success, .success, .failed, .failed],
          .ok false) ∧ tfin.status = .failed ∧ tfin.error_message = some e) ∧
    (cbRun ext pid .installing 0 = .error e →
      (installPackage ext sess pid).2.2 = .error e) ∧
    (∀ (stopOnError : Bool) (p : SoftwarePackage)
        (rest : List SoftwarePackage) (c f s : Nat), p.id = pid →
      cbRun ext pid .installing 0 = .error e →
      seqLoop ext stopOnError (p :: rest) sess c f s = .error e) := by
  refine ⟨fun st pr => updateProgress_snd ext sess pid st pr (by simp [h]),
    ?_, ?_, ?_⟩
  · intro out hA hcbI hcbS hcbF
    exact installPackage_flip ext sess pid t0 out e h hA hcbI hcbS hcbF
  · intro hcbI
    exact installPackage_escape ext sess pid t0 e h hcbI
  · intro stopOnError p rest c f s hp hcbI
    exact seqLoop_escape ext stopOnError p rest sess c f s t0 e
      (by rw [hp]; exact h) (by rw [hp]; exact hcbI)

/-- C6 witness: with the raising callback of `boomEnv`, the exception
escapes `_install_package` on a fresh one-package session. -/
theorem c6_witness :
    cbRun boomEnv "p" .installing 0 = .error "boom" ∧
    (installPackage boomEnv (createSession "sid" "t0" [pkgPlain]) "p").2.2 =
      .error "boom" := by
  have h := c6_theorem boomEnv (createSession "sid" "t0" [pkgPlain]) "p"
    (newTask pkgPlain) "boom" (by decide)
  exact ⟨rfl, h.2.2.1 rfl⟩

/-- C1 counterexample: package `"g"` depends on id `"ghost"`, which has
**no** task in the session — yet the gate passes (absent ids are skipped
silently by `_check_dependencies`), the package is submitted to a worker,
reaches INSTALLING and ends SUCCESS, and nothing is SKIPPED. -/
theorem c1_counterexample :
    pkgGhostDep.dependencies = ["ghost"] ∧
    dictLookup "ghost" (createSession "sid" "t0" [pkgGhostDep]).tasks = none ∧
    (checkDependencies (createSession "sid" "t0" [pkgGhostDep]) pkgGhostDep).1 =
      true ∧
    ((installAll okEnv "sid" [pkgGhostDep] true false [Option.none]
        [(true, 0), (false, 0)]).map
      (fun s => ((dictLookup "g" s.tasks).map InstallTask.status,
        s.completed, s.skipped))) = .ok (some .success, 1, 0) := by
  refine ⟨rfl, by decide, by decide, ?_⟩
  simp only [installAll, parallelInstall]
  rw [dispatchAll_eq_self _ (by decide)]
  rw [drain_eq_self okEnv false _ (by decide) (by decide) (by decide)]
  decide

/-- C1 (amended): the dependency gate checks only dependency ids that
**have** a task in the session: the missing list is exactly the dependency
ids whose task exists and is not SUCCESS (in dependency order), an id with
no task never fails the gate, and when the gate does fail the submission
loop marks the task SKIPPED with `"Missing dependencies: "` naming exactly
that list and submits nothing to the pool. -/
theorem c1_theorem (st : PPState) (p : SoftwarePackage)
    (rest : List SoftwarePackage) (t : InstallTask)
    (hp : st.pending = p :: rest) (hs : st.stop = false)
    (ht : dictLookup p.id st.sess.tasks = some t) :
    (checkDependencies st.sess p).2 = p.dependencies.filter (depUnmet st.sess) ∧
    (∀ d ∈ p.dependencies, dictLookup d st.sess.tasks = none →
      depUnmet st.sess d = false) ∧
    ((checkDependencies st.sess p).1 = false →
      (dispatchStep st).queue = st.queue ∧
      (dispatchStep st).skip = st.skip + 1 ∧
      dictLookup p.id (dispatchStep st).sess.tasks = some
        { t with
            status := .skipped
            error_message := some ("Missing dependencies: " ++
              String.intercalate ", " (checkDependencies st.sess p).2) }) := by
  refine ⟨by rw [checkDependencies_eq_filter], ?_, ?_⟩
  · intro d _ hnone
    simp [depUnmet, hnone]
  · intro hmd
    have hsome : (dictLookup p.id st.sess.tasks).isSome := by simp [ht]
    refine ⟨?_, ?_, ?_⟩ <;>
      simp [dispatchStep, hp, hs, hmd, ht, dictLookup_set_self p.id _ _ hsome]

/-- C1 witness: in `stFix` the pending package `"b"` depends on the present
but FAILED task `"a"`: the gate fails, one dispatch iteration marks `"b"`
SKIPPED with the message naming `"a"`, and the worker queue stays empty. -/
theorem c1_witness :
    (checkDependencies stFix.sess pkgDepB).1 = false ∧
    (dispatchStep stFix).queue = stFix.queue ∧
    (dispatchStep stFix).skip = stFix.skip + 1 ∧
    dictLookup "b" (dispatchStep stFix).sess.tasks = some
      { newTask pkgDepB with
          status := .skipped
          error_message := some ("Missing dependencies: " ++
            String.intercalate ", " (checkDependencies stFix.sess pkgDepB).2) } := by
  have h := c1_theorem stFix pkgDepB [] (newTask pkgDepB) rfl rfl (by decide)
  obtain ⟨h1, h2, h3⟩ := h
  obtain ⟨ha, hb, hc⟩ := h3 (by decide)
  exact ⟨by decide, ha, hb, hc⟩
